import Mathlib

/-!
# NovaSearch daemon — shallow embedding and verification

A shallow embedding of the NovaSearch indexing daemon core
(`src/daemon/src/{models,database,watcher,scanner}.rs`) and proofs
checking the specification claims against it.

Modelling conventions:
* A filesystem path (`std::path::PathBuf`) is the list of its normal
  components (`FsPath`); the parsed component list never contains `""` or
  `"."`.  `pathToString` is `Path::to_string_lossy`, the string form under
  which paths are stored in the SQLite database.
* `SystemTime` is modelled at second resolution as an `Int`: the signed
  number of whole seconds since the Unix epoch (negative = before the
  epoch).  `Instant` (monotonic clock) is a `Nat`.
* The SQLite store is a `Store`: the `files` and `usage_stats` tables as
  lists of rows plus the `AUTOINCREMENT` counters.  A transaction that
  fails is rolled back by SQLite, so a batch is modelled as an
  `Except`-valued fold: an error publishes no state.
* Rust machine integers: `u64` values are `Nat`s; storing them in an
  `INTEGER` column goes through `u64 as i64` (`u64_to_i64`) and reading
  back through `as u64` (`i64_to_u64`).
-/

namespace NovaSearch

/-! ## Entity model (`models.rs`) -/

/-- Model of `FileType` from `models.rs`. -/
inductive FileType where
  | regular
  | directory
  | symlink
  | other
deriving DecidableEq, Repr

/-- Model of `FileType::as_str`. -/
def FileType.asStr : FileType → String
  | .regular => "regular"
  | .directory => "directory"
  | .symlink => "symlink"
  | .other => "other"

/-- Model of `FileType::from_str`. -/
def FileType.fromStr (s : String) : FileType :=
  if s = "regular" then .regular
  else if s = "directory" then .directory
  else if s = "symlink" then .symlink
  else .other

/-- A filesystem path as its list of normal components: `/r/visible.txt`
is `["r", "visible.txt"]` and the root `/` is `[]`. -/
abbrev FsPath := List String

/-- Model of `Path::file_name()` composed with `to_str()`: the final normal
component of the path, `none` when the path has no final component
(the root, or a path ending in `..`).  In this model every component is
valid UTF-8, so the `to_str` step never fails on its own. -/
def fileNameOpt (p : FsPath) : Option String :=
  match p.getLast? with
  | none => none
  | some c => if c = ".." then none else some c

/-- Model of `Path::to_string_lossy` for an absolute path. -/
def pathToString (p : FsPath) : String :=
  "/" ++ String.intercalate "/" p

/-- Model of `FileEntry` from `models.rs`.  Times are seconds since the Unix epoch
(possibly negative, see the header comment). -/
structure FileEntry where
  id : Option Int
  filename : String
  path : FsPath
  size : Nat
  modified_time : Int
  file_type : FileType
  indexed_time : Int
deriving DecidableEq, Repr

/-- Model of `IndexOperation` from `models.rs`. -/
inductive IndexOperation where
  | add (entry : FileEntry)
  | update (entry : FileEntry)
  | delete (path : FsPath)
  | move (fromPath toPath : FsPath)
deriving DecidableEq, Repr

/-! ## Character and string helpers

SQLite folds case for ASCII `A`–`Z` only (both in `LIKE` and in the
`NOCASE` collation); Lean core's `Char.toLower` is exactly that ASCII
fold. -/

/-- ASCII-only lowercasing of a character list. -/
def lowerChars (cs : List Char) : List Char := cs.map Char.toLower

/-- ASCII-only lowercasing of a string. -/
def lowerStr (s : String) : String := String.mk (lowerChars s.data)

/-- Generic boolean list-starts-with test. -/
def prefixL [DecidableEq α] : List α → List α → Bool
  | [], _ => true
  | _ :: _, [] => false
  | a :: as, b :: bs => a = b && prefixL as bs

/-- Generic boolean contiguous-sublist test. -/
def infixL [DecidableEq α] (t : List α) : List α → Bool
  | [] => prefixL t []
  | c :: cs => prefixL t (c :: cs) || infixL t cs

/-- The spec's "filename contains q case-insensitively". -/
def containsCI (q s : String) : Bool := infixL (lowerChars q.data) (lowerChars s.data)

/-- The spec's "filename starts with q case-insensitively". -/
def startsWithCI (q s : String) : Bool := prefixL (lowerChars q.data) (lowerChars s.data)

/-! ## SQLite `LIKE`

`query_files` builds `LIKE` patterns by string concatenation
(`'%' || ? || '%'` and `? || '%'`), so `%` and `_` inside the query
string act as wildcards.  `likeMatch` is SQLite's default `LIKE`:
`%` matches any (possibly empty) character sequence, `_` matches exactly
one character, every other pattern character matches itself up to ASCII
case folding.  There is no `ESCAPE` clause in the source queries. -/

/-- Helper for the `%` wildcard: does `m` accept some suffix of the
string (including the string itself)? -/
def likeStar (m : List Char → Bool) : List Char → Bool
  | [] => m []
  | c :: cs => m (c :: cs) || likeStar m cs

/-- SQLite `LIKE` over explicit character lists (pattern, then string). -/
def likeMatch : List Char → List Char → Bool
  | [] => fun s => s.isEmpty
  | p :: ps =>
      if p = '%' then likeStar (likeMatch ps)
      else if p = '_' then fun s =>
        match s with
        | [] => false
        | _ :: cs => likeMatch ps cs
      else fun s =>
        match s with
        | [] => false
        | c :: cs => p.toLower = c.toLower && likeMatch ps cs

/-- String form of `likeMatch`. -/
def likeMatchStr (pat s : String) : Bool := likeMatch pat.data s.data

/-- Holds when `q` is free of `LIKE` wildcards. -/
def noWildcards (q : String) : Bool := q.data.all (fun c => c ≠ '%' && c ≠ '_')

/-! ## Index store (`database.rs`)

Rows of the two SQLite tables, exactly the columns created by
`create_schema`.  The `AUTOINCREMENT` row ids are modelled by `next*Id`
counters. -/

/-- Model of `u64 as i64` (two's-complement reinterpretation). -/
def u64_to_i64 (n : Nat) : Int :=
  if n < 2 ^ 63 then (n : Int) else (n : Int) - 2 ^ 64

/-- Model of `i64 as u64` (two's-complement reinterpretation). -/
def i64_to_u64 (i : Int) : Nat := (i.emod (2 ^ 64)).toNat

/-- Model of `system_time_to_timestamp`: `duration_since(UNIX_EPOCH)` fails for
times before the epoch, `unwrap_or(Duration::from_secs(0))` turns that
into zero, `as_secs` keeps the whole seconds. -/
def system_time_to_timestamp (t : Int) : Int :=
  if t < 0 then 0 else t

/-- Model of `timestamp_to_system_time`: `UNIX_EPOCH + Duration::from_secs(ts as u64)`. -/
def timestamp_to_system_time (ts : Int) : Int :=
  (i64_to_u64 ts : Int)

/-- A row of the `files` table. -/
structure FileRow where
  id : Nat
  filename : String
  path : String
  size : Int
  modified_time : Int
  file_type : String
  indexed_time : Int
deriving DecidableEq, Repr

/-- A row of the `usage_stats` table. -/
structure UsageRow where
  id : Nat
  file_id : Nat
  launch_count : Int
  last_launched : Int
deriving DecidableEq, Repr

/-- The persistent store: both tables plus the rowid counters. -/
structure Store where
  files : List FileRow
  usage : List UsageRow
  nextFileId : Nat
  nextUsageId : Nat
deriving DecidableEq, Repr

/-- The empty (freshly created) store. -/
def Store.empty : Store := ⟨[], [], 1, 1⟩

/-- Store errors that the pure model can produce.  `busy` never arises in
the single-writer model but is listed because `execute_batch` retries on
it. -/
inductive DbError where
  | constraintViolation
  | onConflictTargetNotUnique
  | busy
deriving DecidableEq, Repr

/-- The `files` row built from a `FileEntry` by the `INSERT` in
`try_execute_batch` / `update_file` / `insert_file`. -/
def rowOfEntry (rowId : Nat) (e : FileEntry) : FileRow :=
  { id := rowId
    filename := e.filename
    path := pathToString e.path
    size := u64_to_i64 e.size
    modified_time := system_time_to_timestamp e.modified_time
    file_type := e.file_type.asStr
    indexed_time := system_time_to_timestamp e.indexed_time }

/-- Model of `INSERT ... ON CONFLICT(path) DO UPDATE`: overwrite the row keyed by
the entry's path (preserving its rowid) or append a fresh row.  The
`path` column's UNIQUE constraint uses the default BINARY collation, so
the key is the exact path string. -/
def upsertEntry (s : Store) (e : FileEntry) : Store :=
  let key := pathToString e.path
  if s.files.any (fun r => r.path = key) then
    { s with files := s.files.map (fun r =>
        if r.path = key then
          { r with
            filename := e.filename
            size := u64_to_i64 e.size
            modified_time := system_time_to_timestamp e.modified_time
            file_type := e.file_type.asStr
            indexed_time := system_time_to_timestamp e.indexed_time }
        else r) }
  else
    { s with
      files := s.files ++ [rowOfEntry s.nextFileId e]
      nextFileId := s.nextFileId + 1 }

/-- Model of `DELETE FROM files WHERE path = ?`.  rusqlite does not switch
`PRAGMA foreign_keys` on, so the declared `ON DELETE CASCADE` on
`usage_stats` is not enforced and usage rows are left in place. -/
def deleteByPath (s : Store) (key : String) : Store :=
  { s with files := s.files.filter (fun r => ¬ r.path = key) }

/-- Model of `UPDATE files SET path = ?, filename = ? WHERE path = ?` as issued by
`move_file` and by the `Move` arm of `try_execute_batch`: the new
filename is `to.file_name().and_then(to_str).unwrap_or("")`.  The UNIQUE
constraint on `path` rejects the update when a different row already
occupies the destination. -/
def applyMove (s : Store) (fromPath toPath : FsPath) : Except DbError Store :=
  let kf := pathToString fromPath
  let kt := pathToString toPath
  let newName := (fileNameOpt toPath).getD ""
  if s.files.any (fun r => r.path = kf) && ¬ kf = kt && s.files.any (fun r => r.path = kt) then
    Except.error DbError.constraintViolation
  else
    Except.ok { s with files := s.files.map (fun r =>
      if r.path = kf then { r with path := kt, filename := newName } else r) }

/-- Model of `move_file` (the standalone store operation): the same `UPDATE`. -/
def move_file (s : Store) (fromPath toPath : FsPath) : Except DbError Store :=
  applyMove s fromPath toPath

/-- Model of `delete_file` (the standalone store operation). -/
def delete_file (s : Store) (p : FsPath) : Store :=
  deleteByPath s (pathToString p)

/-- One operation inside the transaction of `try_execute_batch`. -/
def applyOp (s : Store) (op : IndexOperation) : Except DbError Store :=
  match op with
  | .add e => Except.ok (upsertEntry s e)
  | .update e => Except.ok (upsertEntry s e)
  | .delete p => Except.ok (deleteByPath s (pathToString p))
  | .move f t => applyMove s f t

/-- Model of `try_execute_batch`: all operations run inside one transaction, in
order; the first error aborts and the transaction is rolled back (no new
state is produced). -/
def try_execute_batch (s : Store) (ops : List IndexOperation) : Except DbError Store :=
  ops.foldlM applyOp s

/-- Model of `execute_batch`: the retry loop around `try_execute_batch` re-runs it
only on `DatabaseBusy` / `DatabaseLocked`, which the single-writer pure
model never produces, so the first attempt decides the outcome. -/
def execute_batch (s : Store) (ops : List IndexOperation) : Except DbError Store :=
  try_execute_batch s ops

/-- The store as seen by the caller after `execute_batch`: the new state
on success, the unchanged old state after a rollback. -/
def storeAfterBatch (s : Store) (ops : List IndexOperation) : Store :=
  match execute_batch s ops with
  | Except.ok s' => s'
  | Except.error _ => s

/-- Model of `count_files`: `SELECT COUNT(*) FROM files`. -/
def count_files (s : Store) : Nat := s.files.length

/-- Schema fact: `create_schema` declares `usage_stats` with `id INTEGER PRIMARY KEY
AUTOINCREMENT` and only a plain (non-UNIQUE) index `idx_usage_file_id` on
`file_id`; no UNIQUE constraint or unique index exists on `file_id`. -/
def usageFileIdHasUniqueConstraint : Bool := false

/-- Model of `record_file_launch`: look up the file id for the path; when absent,
return `Ok` without touching `usage_stats`.  When present, the code runs
`INSERT INTO usage_stats ... ON CONFLICT(file_id) DO UPDATE ...`; SQLite
accepts an upsert only when its conflict target carries a PRIMARY KEY or
UNIQUE constraint, and `usage_stats.file_id` carries none
(`usageFileIdHasUniqueConstraint`), so the statement fails to prepare
with `SQLITE_ERROR: ON CONFLICT clause does not match any PRIMARY KEY or
UNIQUE constraint`.  The `if` branch spells out the upsert the code
intends, so the divergence is visible. -/
def record_file_launch (s : Store) (p : FsPath) (now : Int) : Except DbError Store :=
  let key := pathToString p
  match s.files.find? (fun r => r.path = key) with
  | none => Except.ok s
  | some f =>
      if usageFileIdHasUniqueConstraint then
        Except.ok <|
          if s.usage.any (fun u => u.file_id = f.id) then
            { s with usage := s.usage.map (fun u =>
                if u.file_id = f.id then
                  { u with launch_count := u.launch_count + 1, last_launched := now }
                else u) }
          else
            { s with
              usage := s.usage ++ [⟨s.nextUsageId, f.id, 1, now⟩]
              nextUsageId := s.nextUsageId + 1 }
      else
        Except.error DbError.onConflictTargetNotUnique

/-! ## `query_files`

The SQL is

```
SELECT ... FROM files f LEFT JOIN usage_stats u ON f.id = u.file_id
WHERE f.filename LIKE '%' || ? || '%'
ORDER BY CASE WHEN f.filename = ? THEN 0
              WHEN f.filename LIKE ? || '%' THEN 1 ELSE 2 END,
         COALESCE(u.launch_count, 0) DESC,
         f.filename COLLATE NOCASE
LIMIT ?
```

The join, the tier `CASE`, the three-key ordering and the limit are each
modelled below.  `ORDER BY` only promises an order consistent with the
comparison keys; the model picks insertion sort, and the theorems state
only key-sortedness, never a particular order among fully tied rows. -/

/-- Lexicographic `≤` on character lists: byte order of the UTF-8
encodings, which is codepoint order. -/
def leCL : List Char → List Char → Bool
  | [], _ => true
  | _ :: _, [] => false
  | a :: as, b :: bs => a < b || (a = b && leCL as bs)

/-- Insert into a list sorted by the boolean comparison `le`. -/
def insertLe (le : α → α → Bool) (a : α) : List α → List α
  | [] => [a]
  | b :: bs => if le a b then a :: b :: bs else b :: insertLe le a bs

/-- Insertion sort by the boolean comparison `le` (a concrete order
consistent with SQLite's `ORDER BY` keys). -/
def sortLe (le : α → α → Bool) : List α → List α
  | [] => []
  | a :: as => insertLe le a (sortLe le as)

/-- The `LEFT JOIN usage_stats u ON f.id = u.file_id` with
`COALESCE(u.launch_count, 0)`: each file row paired with the launch count
of each matching usage row, or with `0` when none matches. -/
def joinUsage (s : Store) : List (FileRow × Int) :=
  s.files.flatMap (fun f =>
    match s.usage.filter (fun u => u.file_id = f.id) with
    | [] => [(f, 0)]
    | us => us.map (fun u => (f, u.launch_count)))

/-- The ranking tier of the `CASE` expression: `0` when the filename
equals the query exactly (BINARY collation), `1` when it matches
`LIKE ? || '%'`, else `2`. -/
def tier (q f : String) : Nat :=
  if f = q then 0
  else if likeMatch (q.data ++ ['%']) f.data then 1
  else 2

/-- The `ORDER BY` comparison on joined rows: tier ascending, then
launch count descending, then filename ascending under `NOCASE`. -/
def rankLe (q : String) (a b : FileRow × Int) : Bool :=
  let ta := tier q a.1.filename
  let tb := tier q b.1.filename
  decide (ta < tb) ||
    (decide (ta = tb) &&
      (decide (b.2 < a.2) ||
        (decide (a.2 = b.2) &&
          leCL (lowerChars a.1.filename.data) (lowerChars b.1.filename.data))))

/-- The filtered, ordered, limited list of joined rows (still carrying
the launch count, which the `ORDER BY` consults but the result drops). -/
def queryRanked (s : Store) (q : String) (limit : Nat) : List (FileRow × Int) :=
  (sortLe (rankLe q)
    ((joinUsage s).filter (fun rl =>
      likeMatch ('%' :: q.data ++ ['%']) rl.1.filename.data))).take limit

/-- Split a character list at `'/'` (accumulator holds the current
component reversed). -/
def splitSlash : List Char → List Char → List String
  | acc, [] => [String.mk acc.reverse]
  | acc, '/' :: cs => String.mk acc.reverse :: splitSlash [] cs
  | acc, c :: cs => splitSlash (c :: acc) cs

/-- Model of `PathBuf::from(string)` in the component model: parse and drop the
non-normal components. -/
def parsePath (s : String) : FsPath :=
  (splitSlash [] s.data).filter (fun c => ¬ c = "" && ¬ c = ".")

/-- A result `FileEntry` read back from a row, as the `query_map` closure
builds it. -/
def entryOfRow (r : FileRow) : FileEntry :=
  { id := some (r.id : Int)
    filename := r.filename
    path := parsePath r.path
    size := i64_to_u64 r.size
    modified_time := timestamp_to_system_time r.modified_time
    file_type := FileType.fromStr r.file_type
    indexed_time := timestamp_to_system_time r.indexed_time }

/-- Model of `query_files`. -/
def query_files (s : Store) (q : String) (limit : Nat) : List FileEntry :=
  (queryRanked s q limit).map (fun rl => entryOfRow rl.1)

/-! ## Event processor (`watcher.rs`)

`EventProcessor` owns a `HashMap<PathBuf, (FilesystemEvent, Instant)>`
(modelled as an association list with unique keys) and a bounded
`VecDeque<IndexOperation>`.  `Instant::now()` readings are passed in as
explicit `Nat` arguments; the metadata reads of `create_file_entry` are
served by an explicit filesystem snapshot `FsView`. -/

/-- Model of `FilesystemEvent` from `watcher.rs`. -/
inductive FsEvent where
  | created (p : FsPath)
  | modified (p : FsPath)
  | deleted (p : FsPath)
  | moved (fromPath toPath : FsPath)
deriving DecidableEq, Repr

/-- The key under which `add_event` stores an event: the event's
principal path (for `Moved`, the destination). -/
def principalPath : FsEvent → FsPath
  | .created p => p
  | .modified p => p
  | .deleted p => p
  | .moved _ t => t

/-- Metadata of a live filesystem object, as `std::fs::metadata` reports
it. -/
structure FsMeta where
  size : Nat
  modified : Int
  ftype : FileType
deriving DecidableEq, Repr

/-- A filesystem snapshot: metadata per existing path, plus the current
wall clock (used for `SystemTime::now()` in `FileEntry::new`). -/
structure FsView where
  lookup : FsPath → Option FsMeta
  now : Int

/-- Model of `EventProcessor` state. -/
structure EventProcessor where
  pending_events : List (FsPath × FsEvent × Nat)
  debounce_duration : Nat
  operation_queue : List IndexOperation
  max_queue_size : Nat
deriving DecidableEq, Repr

/-- Model of `EventProcessor::new`. -/
def EventProcessor.mkNew (debounce maxQueue : Nat) : EventProcessor :=
  { pending_events := []
    debounce_duration := debounce
    operation_queue := []
    max_queue_size := maxQueue }

/-- Model of `HashMap::insert`: replace the value at the key or add a binding. -/
def insertReplace (k : FsPath) (v : FsEvent × Nat) :
    List (FsPath × FsEvent × Nat) → List (FsPath × FsEvent × Nat)
  | [] => [(k, v)]
  | (k', v') :: rest =>
      if k' = k then (k, v) :: rest else (k', v') :: insertReplace k v rest

/-- Model of `HashMap::get` on the pending map. -/
def lookupPath (k : FsPath) : List (FsPath × FsEvent × Nat) → Option (FsEvent × Nat)
  | [] => none
  | (k', v) :: rest => if k' = k then some v else lookupPath k rest

/-- Model of `add_event`: unconditionally overwrite the pending entry at the
event's principal path, stamping it with the current instant. -/
def add_event (p : EventProcessor) (e : FsEvent) (now : Nat) : EventProcessor :=
  { p with pending_events := insertReplace (principalPath e) (e, now) p.pending_events }

/-- Model of `EventProcessor::create_file_entry`: `none` when the path no longer
exists; otherwise a `FileEntry` from the current metadata (filename from
`Path::file_name`, `indexed_time` stamped `SystemTime::now()` by
`FileEntry::new`). -/
def create_file_entry (fs : FsView) (p : FsPath) : Option FileEntry :=
  match fs.lookup p with
  | none => none
  | some m =>
      match fileNameOpt p with
      | none => none
      | some name =>
          some { id := none
                 filename := name
                 path := p
                 size := m.size
                 modified_time := m.modified
                 file_type := m.ftype
                 indexed_time := fs.now }

/-- Model of `event_to_operation`. -/
def event_to_operation (fs : FsView) : FsEvent → Option IndexOperation
  | .created p => (create_file_entry fs p).map IndexOperation.add
  | .modified p => (create_file_entry fs p).map IndexOperation.update
  | .deleted p => some (IndexOperation.delete p)
  | .moved f t => some (IndexOperation.move f t)

/-- An entry is ready when its debounce has elapsed
(`Instant::duration_since` saturates at zero). -/
def isReady (deb now ts : Nat) : Bool := deb ≤ now - ts

/-- Model of `process_pending`: remove every entry whose debounce has elapsed and
convert it; entries whose conversion fails (file vanished mid-debounce)
are silently dropped. -/
def process_pending (fs : FsView) (now : Nat) (p : EventProcessor) :
    EventProcessor × List IndexOperation :=
  let ready := p.pending_events.filter (fun kv => isReady p.debounce_duration now kv.2.2)
  let remaining := p.pending_events.filter (fun kv => ¬ isReady p.debounce_duration now kv.2.2)
  ({ p with pending_events := remaining },
   ready.filterMap (fun kv => event_to_operation fs kv.2.1))

/-- Model of `QueueError` from `watcher.rs`. -/
inductive QueueError where
  | queueFull
deriving DecidableEq, Repr

/-- Model of `enqueue_operation`: reject when the queue is at (or beyond)
capacity, else append at the tail. -/
def enqueue_operation (p : EventProcessor) (op : IndexOperation) :
    Except QueueError EventProcessor :=
  if p.max_queue_size ≤ p.operation_queue.length then
    Except.error QueueError.queueFull
  else
    Except.ok { p with operation_queue := p.operation_queue ++ [op] }

/-- Model of `dequeue_operation`: pop the head. -/
def dequeue_operation (p : EventProcessor) : EventProcessor × Option IndexOperation :=
  match p.operation_queue with
  | [] => (p, none)
  | op :: rest => ({ p with operation_queue := rest }, some op)

/-- Model of `EventProcessor::clear`. -/
def clearProcessor (p : EventProcessor) : EventProcessor :=
  { p with pending_events := [], operation_queue := [] }

/-- The principal path of an emitted operation (which filesystem object
the operation is about; for `Move`, the destination — the same
convention `add_event` keys by). -/
def opPath : IndexOperation → FsPath
  | .add e => e.path
  | .update e => e.path
  | .delete p => p
  | .move _ t => t

/-- Well-formed pending map: unique keys, and every stored event lies
under its own principal path.  Both hold by construction (`HashMap` keys
are unique and `add_event` keys by `principalPath`). -/
abbrev WfPending (l : List (FsPath × FsEvent × Nat)) : Prop :=
  (l.map (fun kv => kv.1)).Nodup ∧ ∀ kv ∈ l, principalPath kv.2.1 = kv.1

/-! ### Call traces over the processor -/

/-- One externally visible call on the processor (for invariant C6). -/
inductive EPCall where
  | addEv (e : FsEvent) (t : Nat)
  | proc (fs : FsView) (t : Nat)
  | enq (op : IndexOperation)
  | deq

/-- Execute one call, keeping the state a failed `enqueue` leaves
behind. -/
def epStep (p : EventProcessor) : EPCall → EventProcessor
  | .addEv e t => add_event p e t
  | .proc fs t => (process_pending fs t p).1
  | .enq op =>
      match enqueue_operation p op with
      | Except.ok p' => p'
      | Except.error _ => p
  | .deq => (dequeue_operation p).1

/-- Execute a sequence of calls. -/
def runCalls (p : EventProcessor) (cs : List EPCall) : EventProcessor :=
  cs.foldl epStep p

/-- A debounce-window action on a single path (for C5): another event
arrives, or `process_pending` runs. -/
inductive PAction where
  | add (e : FsEvent)
  | flush (fs : FsView)

/-- Run the timed actions in order (intermediate flush output is
irrelevant to C5's conclusion and is discarded). -/
def runTrace (p : EventProcessor) : List (PAction × Nat) → EventProcessor
  | [] => p
  | (PAction.add e, t) :: rest => runTrace (add_event p e t) rest
  | (PAction.flush fs, t) :: rest => runTrace (process_pending fs t p).1 rest

/-- The claim's timing discipline after an event on path `x` at time
`tlast`: every later event is again on `x` and arrives less than
`debounce_duration` after the previous one, and every interleaved
`process_pending` runs before the debounce of the latest event has
elapsed (it is not yet "the first call made at least `debounce_duration`
after the final event"). -/
inductive GoodTrace (x : FsPath) (deb : Nat) : Nat → List (PAction × Nat) → Prop
  | nil (tlast : Nat) : GoodTrace x deb tlast []
  | add (tlast t : Nat) (e : FsEvent) (rest : List (PAction × Nat))
      (hle : tlast ≤ t) (hgap : t < tlast + deb) (hx : principalPath e = x)
      (hrest : GoodTrace x deb t rest) :
      GoodTrace x deb tlast ((PAction.add e, t) :: rest)
  | flush (tlast t : Nat) (fs : FsView) (rest : List (PAction × Nat))
      (hle : tlast ≤ t) (hgap : t < tlast + deb)
      (hrest : GoodTrace x deb tlast rest) :
      GoodTrace x deb tlast ((PAction.flush fs, t) :: rest)

/-- The last event of the debounce window: the final `add` of the trace,
or the initial event when the trace adds none. -/
def lastAdd (init : FsEvent × Nat) : List (PAction × Nat) → FsEvent × Nat
  | [] => init
  | (PAction.add e, t) :: rest => lastAdd (e, t) rest
  | (PAction.flush _, _) :: rest => lastAdd init rest

/-! ## Scanner (`scanner.rs`)

A directory tree is an `FsNode`; `walkNode` is `WalkDir` (depth first,
parents before children, symlinks not followed) restricted by a
`filter_entry` predicate: an entry failing the predicate is neither
yielded nor descended into.  A `glob::Pattern` that compiled
successfully is modelled extensionally as the `String → Bool` test its
`matches` method implements. -/

mutual
/-- A filesystem object: name, metadata, raw content bytes (consulted by
`is_appimage_file`) and children (empty for non-directories). -/
inductive FsNode where
  | mk (name : String) (ftype : FileType) (size : Nat) (modified : Int)
      (content : List Nat) (children : FsForest)

/-- A list of sibling filesystem objects. -/
inductive FsForest where
  | nil
  | cons (head : FsNode) (tail : FsForest)
end

deriving instance DecidableEq for FsNode, FsForest

/-- The object's basename. -/
def FsNode.name : FsNode → String
  | .mk n _ _ _ _ _ => n

/-- The object's file type. -/
def FsNode.ftype : FsNode → FileType
  | .mk _ t _ _ _ _ => t

/-- The object's size in bytes. -/
def FsNode.size : FsNode → Nat
  | .mk _ _ s _ _ _ => s

/-- The object's modification time. -/
def FsNode.modified : FsNode → Int
  | .mk _ _ _ m _ _ => m

/-- The object's raw content bytes. -/
def FsNode.content : FsNode → List Nat
  | .mk _ _ _ _ c _ => c

/-- The object's children. -/
def FsNode.children : FsNode → FsForest
  | .mk _ _ _ _ _ cs => cs

mutual
/-- Model of `WalkDir` under a `filter_entry` predicate: yield the entry, then its
subtree, unless the predicate rejects it — then prune the whole
subtree. -/
def walkNode (pred : FsPath → Bool) (path : FsPath) : FsNode → List (FsPath × FsNode)
  | FsNode.mk name ft sz md ct children =>
      if pred path then
        (path, FsNode.mk name ft sz md ct children) :: walkForest pred path children
      else []

/-- Model of `walkNode` over each child in order, extending the parent path. -/
def walkForest (pred : FsPath → Bool) (parent : FsPath) : FsForest → List (FsPath × FsNode)
  | FsForest.nil => []
  | FsForest.cons c rest =>
      walkNode pred (parent ++ [c.name]) c ++ walkForest pred parent rest
end

/-- Model of `should_include_entry`: the root is always kept; a path without an
extractable basename is kept; otherwise the entry is dropped exactly when
its basename matches one of the compiled exclude patterns. -/
def should_include_entry (excludes : List (String → Bool)) (rootPath path : FsPath) : Bool :=
  if path = rootPath then true
  else
    match fileNameOpt path with
    | none => true
    | some name => ¬ excludes.any (fun pat => pat name)

/-- Model of `extract_file_entry`: filename from `Path::file_name` (entries
without one are skipped), metadata from the entry, `indexed_time`
stamped with the current wall clock by `FileEntry::new`. -/
def extract_file_entry (now : Int) (path : FsPath) (n : FsNode) : Option FileEntry :=
  match fileNameOpt path with
  | none => none
  | some name =>
      some { id := none
             filename := name
             path := path
             size := n.size
             modified_time := n.modified
             file_type := n.ftype
             indexed_time := now }

/-- Model of `scan_directory`: walk the root under `should_include_entry` and
extract an entry for everything yielded. -/
def scan_directory (excludes : List (String → Bool)) (now : Int)
    (rootPath : FsPath) (root : FsNode) : List FileEntry :=
  (walkNode (should_include_entry excludes rootPath) rootPath root).filterMap
    (fun pn => extract_file_entry now pn.1 pn.2)

/-- Model of `str::contains` (substring search). -/
def strContains (s pat : String) : Bool := infixL pat.data s.data

/-- Model of `Path::extension` on a basename, scanning for the suffix after the
last `.` (`none` when the basename has no further `.`). -/
def extensionSuffix : List Char → Option (List Char)
  | [] => none
  | '.' :: rest =>
      match extensionSuffix rest with
      | some e => some e
      | none => some rest
  | _ :: rest => extensionSuffix rest

/-- Model of `Path::extension`: the part of the basename after its last `.`, where
a leading `.` (hidden files) does not start an extension. -/
def extensionOpt (name : String) : Option String :=
  match name.data with
  | [] => none
  | '.' :: rest => (extensionSuffix rest).map (fun cs => String.mk cs)
  | cs => (extensionSuffix cs).map (fun cs₂ => String.mk cs₂)

/-- The ELF magic `7F 45 4C 46` (`\x7fELF`). -/
def elfMagic : List Nat := [0x7f, 0x45, 0x4c, 0x46]

/-- The UTF-8 bytes of an ASCII string. -/
def asciiBytes (s : String) : List Nat := s.data.map Char.toNat

/-- Model of `is_appimage_file`: read up to the first 1024 bytes; accept when the
lossily decoded text contains `"AppImage"` (for ASCII needles, byte-level
containment) or the buffer starts with the ELF magic. -/
def is_appimage_file (content : List Nat) : Bool :=
  let buffer := content.take 1024
  infixL (asciiBytes "AppImage") buffer || prefixL elfMagic buffer

/-- The inclusion test of `scan_application_directory`: a regular file is
kept when its extension is `desktop` or `AppImage`; an extensionless
regular file when its basename contains `"AppImage"` or
`is_appimage_file` accepts its content; everything that is not a regular
file is kept. -/
def app_should_include (path : FsPath) (n : FsNode) : Bool :=
  if n.ftype = FileType.regular then
    match fileNameOpt path with
    | none => false
    | some name =>
        match extensionOpt name with
        | some e => e = "desktop" || e = "AppImage"
        | none => strContains name "AppImage" || is_appimage_file n.content
  else true

/-- Model of `scan_application_directory`: walk everything (no `filter_entry`),
emit the entries passing `app_should_include`. -/
def scan_application_directory (now : Int) (rootPath : FsPath) (root : FsNode) :
    List FileEntry :=
  (walkNode (fun _ => true) rootPath root).filterMap
    (fun pn =>
      if app_should_include pn.1 pn.2 then extract_file_entry now pn.1 pn.2 else none)

/-! ## Spec-side notions and concrete fixtures -/

/-- The spec's ranking tier, worded over plain string predicates:
`0` for an exact match, `1` for a case-insensitive prefix match, `2`
otherwise. -/
def tierSpec (q f : String) : Nat :=
  if f = q then 0
  else if startsWithCI q f then 1
  else 2

/-- The UNIQUE constraint on `files.path`: no two rows share a path. -/
abbrev pathsUnique (s : Store) : Prop :=
  (s.files.map (fun r => r.path)).Nodup

/-- A store with a single file whose name contains no `%`: exercises the
wildcard behaviour of `query_files`. -/
def wildcardStore : Store :=
  { files := [⟨1, "abc", "/x/abc", 3, 5, "regular", 6⟩]
    usage := []
    nextFileId := 2
    nextUsageId := 1 }

/-- A store holding one file at `/a/b.txt`, for the `record_file_launch`
failure demonstration. -/
def launchStore : Store :=
  { files := [⟨1, "b.txt", "/a/b.txt", 10, 5, "regular", 6⟩]
    usage := []
    nextFileId := 2
    nextUsageId := 1 }

/-- A store holding rows at `/a` and `/b`, so that `Move /a /b` violates
the UNIQUE constraint on `path`. -/
def clashStore : Store :=
  { files := [⟨1, "a", "/a", 1, 1, "regular", 1⟩, ⟨2, "b", "/b", 2, 2, "regular", 2⟩]
    usage := []
    nextFileId := 3
    nextUsageId := 1 }

/-- A regular file of four bytes. -/
def plainFile (name : String) : FsNode :=
  FsNode.mk name FileType.regular 4 0 [] FsForest.nil

/-- The tree of scenario E: `/r/visible.txt`, `/r/.hidden`,
`/r/node_modules/x`. -/
def treeR : FsNode :=
  FsNode.mk "r" FileType.directory 0 0 []
    (FsForest.cons (plainFile "visible.txt")
      (FsForest.cons (plainFile ".hidden")
        (FsForest.cons (FsNode.mk "node_modules" FileType.directory 0 0 []
            (FsForest.cons (plainFile "x") FsForest.nil))
          FsForest.nil)))

/-- The compiled exclude patterns of scenario E: `glob::Pattern` `".*"`
matches exactly the names starting with `.` (a literal dot, then `*` for
any sequence), and `"node_modules"` matches exactly that literal name. -/
def exGlobs : List (String → Bool) :=
  [fun n => prefixL ".".data n.data, fun n => n = "node_modules"]

/-- An ELF executable whose basename carries the extension `bin`. -/
def elfFile : FsNode :=
  FsNode.mk "tool.bin" FileType.regular 4 0 [0x7f, 0x45, 0x4c, 0x46] FsForest.nil

/-- An application root `/opt` containing only `elfFile`. -/
def appTree : FsNode :=
  FsNode.mk "opt" FileType.directory 0 0 [] (FsForest.cons elfFile FsForest.nil)

/-! ## Helper lemmas: insertion sort -/

theorem mem_insertLe (le : α → α → Bool) (a x : α) :
    ∀ l : List α, x ∈ insertLe le a l ↔ x = a ∨ x ∈ l := by
  intro l
  induction l with
  | nil => simp [insertLe]
  | cons b bs ih =>
      simp only [insertLe]
      by_cases h : le a b
      · rw [if_pos h]
        simp only [List.mem_cons]
      · rw [if_neg h]
        simp only [List.mem_cons, ih]
        tauto

theorem pairwise_insertLe (le : α → α → Bool)
    (htrans : ∀ a b c, le a b = true → le b c = true → le a c = true)
    (htot : ∀ a b, le a b = true ∨ le b a = true) (a : α) :
    ∀ l : List α, l.Pairwise (fun x y => le x y = true) →
      (insertLe le a l).Pairwise (fun x y => le x y = true) := by
  intro l
  induction l with
  | nil => simp [insertLe]
  | cons b bs ih =>
      intro hp
      rw [List.pairwise_cons] at hp
      obtain ⟨hb, hbs⟩ := hp
      simp only [insertLe]
      by_cases h : le a b
      · rw [if_pos h, List.pairwise_cons]
        refine ⟨?_, List.pairwise_cons.mpr ⟨hb, hbs⟩⟩
        intro y hy
        rcases List.mem_cons.mp hy with rfl | hy'
        · exact h
        · exact htrans a b y h (hb y hy')
      · rw [if_neg h]
        rw [List.pairwise_cons]
        refine ⟨?_, ih hbs⟩
        intro y hy
        rcases (mem_insertLe le a y bs).mp hy with rfl | hy'
        · rcases htot y b with h1 | h1
          · exact absurd h1 h
          · exact h1
        · exact hb y hy'

theorem insertLe_perm (le : α → α → Bool) (a : α) :
    ∀ l : List α, (insertLe le a l).Perm (a :: l) := by
  intro l
  induction l with
  | nil => simp [insertLe]
  | cons b bs ih =>
      simp only [insertLe]
      by_cases h : le a b
      · simp [h]
      · simp only [if_neg h]
        exact (ih.cons b).trans (List.Perm.swap a b bs)

theorem sortLe_pairwise (le : α → α → Bool)
    (htrans : ∀ a b c, le a b = true → le b c = true → le a c = true)
    (htot : ∀ a b, le a b = true ∨ le b a = true) :
    ∀ l : List α, (sortLe le l).Pairwise (fun x y => le x y = true) := by
  intro l
  induction l with
  | nil => simp [sortLe]
  | cons a as ih => exact pairwise_insertLe le htrans htot a _ ih

theorem sortLe_perm (le : α → α → Bool) :
    ∀ l : List α, (sortLe le l).Perm l := by
  intro l
  induction l with
  | nil => simp [sortLe]
  | cons a as ih =>
      simp only [sortLe]
      exact (insertLe_perm le a (sortLe le as)).trans (ih.cons a)

/-! ## Helper lemmas: the `NOCASE` comparison -/

theorem leCL_total : ∀ a b : List Char, leCL a b = true ∨ leCL b a = true := by
  intro a
  induction a with
  | nil => intro b; left; simp [leCL]
  | cons x xs ih =>
      intro b
      cases b with
      | nil => right; simp [leCL]
      | cons y ys =>
          simp only [leCL, Bool.or_eq_true, Bool.and_eq_true, decide_eq_true_eq]
          rcases lt_trichotomy x y with h | h | h
          · exact Or.inl (Or.inl h)
          · subst h
            rcases ih ys with h2 | h2
            · exact Or.inl (Or.inr ⟨rfl, h2⟩)
            · exact Or.inr (Or.inr ⟨rfl, h2⟩)
          · exact Or.inr (Or.inl h)

theorem leCL_trans :
    ∀ a b c : List Char, leCL a b = true → leCL b c = true → leCL a c = true := by
  intro a
  induction a with
  | nil => intro b c _ _; simp [leCL]
  | cons x xs ih =>
      intro b c hab hbc
      cases b with
      | nil => simp [leCL] at hab
      | cons y ys =>
          cases c with
          | nil => simp [leCL] at hbc
          | cons z zs =>
              simp only [leCL, Bool.or_eq_true, Bool.and_eq_true,
                decide_eq_true_eq] at hab hbc ⊢
              rcases hab with h1 | ⟨h1, h2⟩ <;> rcases hbc with h3 | ⟨h3, h4⟩
              · exact Or.inl (lt_trans h1 h3)
              · subst h3; exact Or.inl h1
              · subst h1; exact Or.inl h3
              · subst h1; exact Or.inr ⟨h3, ih ys zs h2 h4⟩

/-! ## Helper lemmas: the `ORDER BY` comparison -/

theorem rankLe_total (q : String) (a b : FileRow × Int) :
    rankLe q a b = true ∨ rankLe q b a = true := by
  unfold rankLe
  simp only [Bool.or_eq_true, Bool.and_eq_true, decide_eq_true_eq]
  rcases Nat.lt_trichotomy (tier q a.1.filename) (tier q b.1.filename) with h | h | h
  · exact Or.inl (Or.inl h)
  · rcases Int.lt_trichotomy b.2 a.2 with h2 | h2 | h2
    · exact Or.inl (Or.inr ⟨h, Or.inl h2⟩)
    · rcases leCL_total (lowerChars a.1.filename.data) (lowerChars b.1.filename.data)
        with h3 | h3
      · exact Or.inl (Or.inr ⟨h, Or.inr ⟨h2.symm, h3⟩⟩)
      · exact Or.inr (Or.inr ⟨h.symm, Or.inr ⟨h2, h3⟩⟩)
    · exact Or.inr (Or.inr ⟨h.symm, Or.inl h2⟩)
  · exact Or.inr (Or.inl h)

theorem rankLe_trans (q : String) (a b c : FileRow × Int)
    (hab : rankLe q a b = true) (hbc : rankLe q b c = true) : rankLe q a c = true := by
  unfold rankLe at hab hbc ⊢
  simp only [Bool.or_eq_true, Bool.and_eq_true, decide_eq_true_eq] at hab hbc ⊢
  rcases hab with h1 | ⟨h1, h2⟩
  · rcases hbc with h3 | ⟨h3, h4⟩
    · exact Or.inl (lt_trans h1 h3)
    · exact Or.inl (h3 ▸ h1)
  · rcases hbc with h3 | ⟨h3, h4⟩
    · exact Or.inl (h1 ▸ h3)
    · refine Or.inr ⟨h1.trans h3, ?_⟩
      rcases h2 with h5 | ⟨h5, h6⟩
      · rcases h4 with h7 | ⟨h7, h8⟩
        · exact Or.inl (by omega)
        · exact Or.inl (by omega)
      · rcases h4 with h7 | ⟨h7, h8⟩
        · exact Or.inl (by omega)
        · exact Or.inr ⟨by omega, leCL_trans _ _ _ h6 h8⟩

/-! ## Helper lemmas: unique keys -/

theorem filter_key_length_le_one {κ : Type _} [DecidableEq κ] (f : α → κ) (k : κ) :
    ∀ l : List α, (l.map f).Nodup → (l.filter (fun x => f x = k)).length ≤ 1 := by
  intro l
  induction l with
  | nil => simp
  | cons a as ih =>
      intro h
      rw [List.map_cons, List.nodup_cons] at h
      obtain ⟨hna, hnd⟩ := h
      by_cases hk : f a = k
      · rw [List.filter_cons_of_pos (by simp [hk])]
        have hnil : as.filter (fun x => f x = k) = [] := by
          rw [List.filter_eq_nil_iff]
          intro x hx
          simp only [decide_eq_true_eq]
          intro hfx
          exact hna (by
            have : f a = f x := by rw [hk, hfx]
            exact this ▸ List.mem_map_of_mem f hx)
        simp [hnil]
      · rw [List.filter_cons_of_neg (by simp [hk])]
        exact ih hnd

theorem find_key_of_nodup {κ : Type _} [DecidableEq κ] (f : α → κ) (k : κ) :
    ∀ l : List α, (l.map f).Nodup → ∀ r ∈ l, f r = k →
      l.find? (fun x => f x = k) = some r := by
  intro l
  induction l with
  | nil => intro _ r hr; exact absurd hr (List.not_mem_nil r)
  | cons a as ih =>
      intro h r hr hk
      rw [List.map_cons, List.nodup_cons] at h
      obtain ⟨hna, hnd⟩ := h
      by_cases ha : f a = k
      · rw [List.find?_cons_of_pos _ (by simp [ha])]
        rcases List.mem_cons.mp hr with rfl | hr'
        · rfl
        · exact absurd (by
            have : f a = f r := by rw [ha, hk]
            exact this ▸ List.mem_map_of_mem f hr') hna
      · rw [List.find?_cons_of_neg _ (by simp [ha])]
        rcases List.mem_cons.mp hr with rfl | hr'
        · exact absurd hk ha
        · exact ih hnd r hr' hk

theorem nodup_fst_eq {β : Type _} :
    ∀ l : List (α × β), (l.map Prod.fst).Nodup →
      ∀ (k : α) (a b : β), (k, a) ∈ l → (k, b) ∈ l → a = b := by
  intro l
  induction l with
  | nil => intro _ k a b ha; exact absurd ha (List.not_mem_nil _)
  | cons p ps ih =>
      intro h k a b ha hb
      rw [List.map_cons, List.nodup_cons] at h
      obtain ⟨hnp, hnd⟩ := h
      rcases List.mem_cons.mp ha with rfl | ha' <;> rcases List.mem_cons.mp hb with hb' | hb'
      · exact congrArg Prod.snd hb'.symm
      · exact absurd (List.mem_map_of_mem Prod.fst hb') hnp
      · rw [← hb'] at hnp
        exact absurd (List.mem_map_of_mem Prod.fst ha') hnp
      · exact ih hnd k a b ha' hb'

/-! ## Helper lemmas: `LIKE` on wildcard-free queries -/

theorem likeStar_nil : ∀ s : List Char, likeStar (likeMatch []) s = true := by
  intro s
  induction s with
  | nil => rfl
  | cons c cs ih =>
      rw [show likeStar (likeMatch []) (c :: cs) =
          (likeMatch [] (c :: cs) || likeStar (likeMatch []) cs) from rfl, ih, Bool.or_true]

theorem likeMatch_lit_pct :
    ∀ q : List Char, (∀ c ∈ q, c ≠ '%' ∧ c ≠ '_') →
      ∀ s : List Char, likeMatch (q ++ ['%']) s = prefixL (lowerChars q) (lowerChars s) := by
  intro q
  induction q with
  | nil =>
      intro _ s
      simp only [List.nil_append, lowerChars, List.map_nil]
      rw [show likeMatch ['%'] = likeStar (likeMatch []) from rfl, likeStar_nil]
      rfl
  | cons a q' ih =>
      intro hq s
      have ha := hq a (List.mem_cons_self a q')
      have hq' : ∀ c ∈ q', c ≠ '%' ∧ c ≠ '_' := fun c hc => hq c (List.mem_cons_of_mem a hc)
      rw [List.cons_append, show likeMatch (a :: (q' ++ ['%'])) =
        (if a = '%' then likeStar (likeMatch (q' ++ ['%']))
         else if a = '_' then fun s =>
           match s with
           | [] => false
           | _ :: cs => likeMatch (q' ++ ['%']) cs
         else fun s =>
           match s with
           | [] => false
           | c :: cs => a.toLower = c.toLower && likeMatch (q' ++ ['%']) cs) from rfl,
        if_neg ha.1, if_neg ha.2]
      cases s with
      | nil => rfl
      | cons c cs =>
          simp only [lowerChars, List.map_cons]
          rw [show prefixL (a.toLower :: List.map Char.toLower q')
              (c.toLower :: List.map Char.toLower cs) =
            (decide (a.toLower = c.toLower) &&
              prefixL (List.map Char.toLower q') (List.map Char.toLower cs)) from rfl]
          have := ih hq' cs
          simp only [lowerChars] at this
          rw [this]

theorem likeMatch_infix_pct :
    ∀ (q : List Char), (∀ c ∈ q, c ≠ '%' ∧ c ≠ '_') →
      ∀ s : List Char,
        likeMatch ('%' :: (q ++ ['%'])) s = infixL (lowerChars q) (lowerChars s) := by
  intro q hq s
  rw [show likeMatch ('%' :: (q ++ ['%'])) = likeStar (likeMatch (q ++ ['%'])) from rfl]
  induction s with
  | nil =>
      rw [show likeStar (likeMatch (q ++ ['%'])) [] = likeMatch (q ++ ['%']) [] from rfl,
        likeMatch_lit_pct q hq []]
      rfl
  | cons c cs ih =>
      rw [show likeStar (likeMatch (q ++ ['%'])) (c :: cs) =
          (likeMatch (q ++ ['%']) (c :: cs) || likeStar (likeMatch (q ++ ['%'])) cs) from rfl,
        likeMatch_lit_pct q hq (c :: cs), ih]
      simp only [lowerChars, List.map_cons]
      rfl

theorem noWildcards_chars {q : String} (hq : noWildcards q = true) :
    ∀ c ∈ q.data, c ≠ '%' ∧ c ≠ '_' := by
  intro c hc
  rw [noWildcards, List.all_eq_true] at hq
  have := hq c hc
  simp only [Bool.and_eq_true, decide_eq_true_eq] at this
  simpa using this

/-! ## Claim C2 -/

/-- C2: the claim fails on the code.  For a path that has a record,
`record_file_launch` does not increment `launch_count` and does not
succeed: its `INSERT ... ON CONFLICT(file_id) DO UPDATE` names a conflict
target without any PRIMARY KEY or UNIQUE constraint
(`usage_stats.file_id` only has the plain index `idx_usage_file_id`), so
SQLite rejects the statement and the call returns `Err`; `launch_count`
therefore never reaches 1, let alone N.  Only the no-record case behaves
as claimed (a successful no-op). -/
theorem record_file_launch_bug :
    record_file_launch launchStore ["a", "b.txt"] 1000 =
      Except.error DbError.onConflictTargetNotUnique ∧
    record_file_launch launchStore ["missing"] 1000 = Except.ok launchStore :=
  ⟨rfl, rfl⟩

/-! ## Claim C3 -/

/-- C3: `execute_batch` is atomic: when it returns an error the caller's
store is exactly the state from before the call (the transaction is
rolled back), and on success the operations take effect sequentially, in
batch order — running a batch that starts with a successfully applied
prefix is the same as running the rest from the prefix's result
state. -/
theorem execute_batch_atomic (s : Store) (ops : List IndexOperation) :
    ((execute_batch s ops).isOk = false → storeAfterBatch s ops = s) ∧
    (∀ l₁ l₂, ops = l₁ ++ l₂ → ∀ m, execute_batch s l₁ = Except.ok m →
      execute_batch s ops = execute_batch m l₂) := by
  constructor
  · intro h
    unfold storeAfterBatch
    cases hx : execute_batch s ops with
    | ok s' => rw [hx] at h; simp [Except.isOk, Except.toBool] at h
    | error e => rfl
  · intro l₁ l₂ hsplit m hm
    subst hsplit
    unfold execute_batch try_execute_batch at hm ⊢
    rw [List.foldlM_append, hm]
    rfl

/-- Witness for C3: a `Move` whose destination is already occupied by a
different record makes the batch fail and leaves the store untouched;
prefixing the failing batch with an applied `Delete` composes
sequentially. -/
theorem execute_batch_atomic_witness :
    (execute_batch clashStore [IndexOperation.move ["a"] ["b"]]).isOk = false ∧
    storeAfterBatch clashStore [IndexOperation.move ["a"] ["b"]] = clashStore ∧
    execute_batch clashStore
        ([IndexOperation.delete ["c"]] ++ [IndexOperation.move ["a"] ["b"]]) =
      execute_batch clashStore [IndexOperation.move ["a"] ["b"]] := by
  refine ⟨by decide, ?_, ?_⟩
  · exact (execute_batch_atomic clashStore [IndexOperation.move ["a"] ["b"]]).1 (by decide)
  · exact (execute_batch_atomic clashStore
        ([IndexOperation.delete ["c"]] ++ [IndexOperation.move ["a"] ["b"]])).2
      [IndexOperation.delete ["c"]] [IndexOperation.move ["a"] ["b"]] rfl
      clashStore rfl

/-! ## Claim C9 -/

/-- C9: persisting a `FileEntry` never fails on out-of-range times.
`system_time_to_timestamp` is total; a `modified_time` or `indexed_time`
before the Unix epoch is stored as `0`, and after a store round trip the
corresponding time reads back as the Unix epoch
(`timestamp_to_system_time 0 = 0`). -/
theorem pre_epoch_time_roundtrip (E : FileEntry) :
    (E.modified_time < 0 →
      system_time_to_timestamp E.modified_time = 0 ∧
      ∀ r ∈ (storeAfterBatch Store.empty [IndexOperation.add E]).files,
        r.modified_time = 0 ∧ timestamp_to_system_time r.modified_time = 0) ∧
    (E.indexed_time < 0 →
      system_time_to_timestamp E.indexed_time = 0 ∧
      ∀ r ∈ (storeAfterBatch Store.empty [IndexOperation.add E]).files,
        r.indexed_time = 0 ∧ timestamp_to_system_time r.indexed_time = 0) := by
  have hstore : (storeAfterBatch Store.empty [IndexOperation.add E]).files =
      [rowOfEntry 1 E] := by
    simp [storeAfterBatch, execute_batch, try_execute_batch, List.foldlM, applyOp,
      upsertEntry, Store.empty, rowOfEntry]
  have hzero : timestamp_to_system_time 0 = 0 := by decide
  constructor
  · intro h
    have hconv : system_time_to_timestamp E.modified_time = 0 := by
      simp [system_time_to_timestamp, h]
    refine ⟨hconv, ?_⟩
    intro r hr
    rw [hstore, List.mem_singleton] at hr
    subst hr
    simp [rowOfEntry, hconv, hzero]
  · intro h
    have hconv : system_time_to_timestamp E.indexed_time = 0 := by
      simp [system_time_to_timestamp, h]
    refine ⟨hconv, ?_⟩
    intro r hr
    rw [hstore, List.mem_singleton] at hr
    subst hr
    simp [rowOfEntry, hconv, hzero]

/-- Witness for C9 at a concrete entry whose times both lie before the
epoch. -/
theorem pre_epoch_time_roundtrip_witness :
    ((-5 : Int) < 0 → system_time_to_timestamp (-5) = 0 ∧
      ∀ r ∈ (storeAfterBatch Store.empty
          [IndexOperation.add ⟨none, "old.txt", ["a", "old.txt"], 3, -5, .regular, -7⟩]).files,
        r.modified_time = 0 ∧ timestamp_to_system_time r.modified_time = 0) ∧
    ((-7 : Int) < 0 → system_time_to_timestamp (-7) = 0 ∧
      ∀ r ∈ (storeAfterBatch Store.empty
          [IndexOperation.add ⟨none, "old.txt", ["a", "old.txt"], 3, -5, .regular, -7⟩]).files,
        r.indexed_time = 0 ∧ timestamp_to_system_time r.indexed_time = 0) :=
  pre_epoch_time_roundtrip ⟨none, "old.txt", ["a", "old.txt"], 3, -5, .regular, -7⟩

/-! ## Claim C10 -/

/-- C10: a `Move` whose destination has no extractable final component
still succeeds (both as `move_file` and as a batched `Move`), re-keys the
record to the destination path, and sets its `filename` to the empty
string (`file_name().and_then(to_str).unwrap_or("")`). -/
theorem move_without_basename (s : Store) (fromPath toPath : FsPath) (r : FileRow)
    (hr : r ∈ s.files) (hfrom : r.path = pathToString fromPath)
    (hnone : fileNameOpt toPath = none)
    (hnc : s.files.any (fun r₂ => r₂.path = pathToString toPath) = false) :
    ∃ s', move_file s fromPath toPath = Except.ok s' ∧
      try_execute_batch s [IndexOperation.move fromPath toPath] = Except.ok s' ∧
      { r with path := pathToString toPath, filename := "" } ∈ s'.files := by
  have hcond : (s.files.any (fun r₂ => r₂.path = pathToString fromPath) &&
      !(pathToString fromPath = pathToString toPath) &&
      s.files.any (fun r₂ => r₂.path = pathToString toPath)) = false := by
    rw [hnc, Bool.and_false]
  have hmv : move_file s fromPath toPath = Except.ok
      { s with files := s.files.map (fun r₂ =>
          if r₂.path = pathToString fromPath
          then { r₂ with path := pathToString toPath, filename := "" } else r₂) } := by
    unfold move_file applyMove
    simp only [hnone, Option.getD_none, decide_not]
    rw [hcond]
    simp
  refine ⟨_, hmv, ?_, ?_⟩
  · have hop : applyOp s (IndexOperation.move fromPath toPath) =
        move_file s fromPath toPath := rfl
    simp only [try_execute_batch, List.foldlM, hop, hmv]
    rfl
  · have := List.mem_map_of_mem (fun r₂ =>
      if r₂.path = pathToString fromPath
      then { r₂ with path := pathToString toPath, filename := "" } else r₂) hr
    simpa [hfrom] using this

/-! ## Claim C6 -/

theorem mem_keys_insertReplace (k : FsPath) (v : FsEvent × Nat) :
    ∀ (l : List (FsPath × FsEvent × Nat)) (x : FsPath),
      (x ∈ (insertReplace k v l).map (fun kv => kv.1) ↔
        x = k ∨ x ∈ l.map (fun kv => kv.1)) := by
  intro l
  induction l with
  | nil => intro x; simp [insertReplace]
  | cons p ps ih =>
      intro x
      cases p with
      | mk k' v' =>
          simp only [insertReplace]
          by_cases h : k' = k
          · rw [if_pos h]
            subst h
            simp only [List.map_cons, List.mem_cons]
            tauto
          · rw [if_neg h]
            simp only [List.map_cons, List.mem_cons, ih]
            tauto

theorem insertReplace_keys_nodup (k : FsPath) (v : FsEvent × Nat) :
    ∀ l : List (FsPath × FsEvent × Nat),
      (l.map (fun kv => kv.1)).Nodup →
      ((insertReplace k v l).map (fun kv => kv.1)).Nodup := by
  intro l
  induction l with
  | nil => intro _; simp [insertReplace]
  | cons p ps ih =>
      intro h
      rw [List.map_cons, List.nodup_cons] at h
      obtain ⟨hnp, hnd⟩ := h
      cases p with
      | mk k' v' =>
          simp only [insertReplace]
          by_cases hk : k' = k
          · rw [if_pos hk]
            subst hk
            rw [List.map_cons, List.nodup_cons]
            exact ⟨hnp, hnd⟩
          · rw [if_neg hk]
            rw [List.map_cons, List.nodup_cons]
            refine ⟨?_, ih hnd⟩
            intro hmem
            rcases (mem_keys_insertReplace k v ps k').mp hmem with rfl | hmem'
            · exact hk rfl
            · exact hnp hmem'

theorem epStep_inv (p : EventProcessor) (c : EPCall)
    (h1 : (p.pending_events.map (fun kv => kv.1)).Nodup)
    (h2 : p.operation_queue.length ≤ p.max_queue_size) :
    ((epStep p c).pending_events.map (fun kv => kv.1)).Nodup ∧
      (epStep p c).operation_queue.length ≤ (epStep p c).max_queue_size := by
  cases c with
  | addEv e t =>
      exact ⟨insertReplace_keys_nodup _ _ _ h1, h2⟩
  | proc fs t =>
      refine ⟨?_, h2⟩
      exact ((List.filter_sublist _).map _).nodup h1
  | enq op =>
      simp only [epStep, enqueue_operation]
      by_cases hfull : p.max_queue_size ≤ p.operation_queue.length
      · rw [if_pos hfull]
        exact ⟨h1, h2⟩
      · rw [if_neg hfull]
        refine ⟨h1, ?_⟩
        simp only [List.length_append, List.length_singleton]
        omega
  | deq =>
      simp only [epStep, dequeue_operation]
      cases hq : p.operation_queue with
      | nil => exact ⟨h1, h2⟩
      | cons op rest =>
          refine ⟨h1, ?_⟩
          have : p.operation_queue.length = rest.length + 1 := by rw [hq]; rfl
          simp only []
          omega

theorem runCalls_inv (cs : List EPCall) :
    ∀ p : EventProcessor,
      (p.pending_events.map (fun kv => kv.1)).Nodup →
      p.operation_queue.length ≤ p.max_queue_size →
      ((runCalls p cs).pending_events.map (fun kv => kv.1)).Nodup ∧
        (runCalls p cs).operation_queue.length ≤ (runCalls p cs).max_queue_size := by
  induction cs with
  | nil => intro p h1 h2; exact ⟨h1, h2⟩
  | cons c cs ih =>
      intro p h1 h2
      have h := epStep_inv p c h1 h2
      exact ih (epStep p c) h.1 h.2

/-- C6: across any sequence of processor calls starting from
`EventProcessor::new`, the debounce map keeps at most one entry per path
(its key list stays duplicate-free) and the queue never exceeds the
configured capacity; moreover `enqueue_operation` on a full queue fails
with `QueueFull` and leaves the processor unchanged. -/
theorem processor_bounds (deb mx : Nat) (cs : List EPCall) :
    (((runCalls (EventProcessor.mkNew deb mx) cs).pending_events.map
        (fun kv => kv.1)).Nodup ∧
      (runCalls (EventProcessor.mkNew deb mx) cs).operation_queue.length ≤
        (runCalls (EventProcessor.mkNew deb mx) cs).max_queue_size) ∧
    (∀ (p : EventProcessor) (op : IndexOperation),
      p.max_queue_size ≤ p.operation_queue.length →
      enqueue_operation p op = Except.error QueueError.queueFull ∧
        epStep p (EPCall.enq op) = p) := by
  constructor
  · exact runCalls_inv cs (EventProcessor.mkNew deb mx) (by simp [EventProcessor.mkNew])
      (by simp [EventProcessor.mkNew])
  · intro p op hfull
    have he : enqueue_operation p op = Except.error QueueError.queueFull := by
      simp only [enqueue_operation]
      rw [if_pos hfull]
    refine ⟨he, ?_⟩
    simp only [epStep, he]

/-- Witness for C6: a concrete call sequence (two enqueues into capacity
one, an event, a flush) and a zero-capacity processor whose enqueue
fails. -/
theorem processor_bounds_witness :
    (((runCalls (EventProcessor.mkNew 1 1)
        [EPCall.enq (IndexOperation.delete ["a"]),
         EPCall.enq (IndexOperation.delete ["b"]),
         EPCall.addEv (FsEvent.created ["x"]) 0,
         EPCall.addEv (FsEvent.deleted ["x"]) 1]).pending_events.map
          (fun kv => kv.1)).Nodup ∧
      (runCalls (EventProcessor.mkNew 1 1)
        [EPCall.enq (IndexOperation.delete ["a"]),
         EPCall.enq (IndexOperation.delete ["b"]),
         EPCall.addEv (FsEvent.created ["x"]) 0,
         EPCall.addEv (FsEvent.deleted ["x"]) 1]).operation_queue.length ≤
        (runCalls (EventProcessor.mkNew 1 1)
          [EPCall.enq (IndexOperation.delete ["a"]),
           EPCall.enq (IndexOperation.delete ["b"]),
           EPCall.addEv (FsEvent.created ["x"]) 0,
           EPCall.addEv (FsEvent.deleted ["x"]) 1]).max_queue_size) ∧
    (enqueue_operation (EventProcessor.mkNew 1 0) (IndexOperation.delete ["a"]) =
        Except.error QueueError.queueFull ∧
      epStep (EventProcessor.mkNew 1 0) (EPCall.enq (IndexOperation.delete ["a"])) =
        EventProcessor.mkNew 1 0) :=
  ⟨(processor_bounds 1 1
      [EPCall.enq (IndexOperation.delete ["a"]),
       EPCall.enq (IndexOperation.delete ["b"]),
       EPCall.addEv (FsEvent.created ["x"]) 0,
       EPCall.addEv (FsEvent.deleted ["x"]) 1]).1,
   (processor_bounds 1 0 []).2 (EventProcessor.mkNew 1 0)
     (IndexOperation.delete ["a"]) (by decide)⟩

/-! ## Claim C4 -/

theorem upsert_path_map (s : Store) (e : FileEntry) :
    (upsertEntry s e).files.map (fun r => r.path) =
      if s.files.any (fun r => r.path = pathToString e.path)
      then s.files.map (fun r => r.path)
      else s.files.map (fun r => r.path) ++ [pathToString e.path] := by
  unfold upsertEntry
  by_cases hc : s.files.any (fun r => r.path = pathToString e.path)
  · rw [if_pos hc, if_pos hc]
    simp only [List.map_map]
    apply List.map_congr_left
    intro r _
    by_cases hk : r.path = pathToString e.path <;> simp [hk]
  · rw [if_neg hc, if_neg hc]
    simp [rowOfEntry]

theorem upsert_pathsUnique (s : Store) (e : FileEntry) (h : pathsUnique s) :
    pathsUnique (upsertEntry s e) := by
  unfold pathsUnique at h ⊢
  rw [upsert_path_map]
  by_cases hc : s.files.any (fun r => r.path = pathToString e.path)
  · rw [if_pos hc]; exact h
  · rw [if_neg hc]
    rw [List.nodup_append]
    refine ⟨h, List.nodup_singleton _, ?_⟩
    intro x hx hmem
    rw [List.mem_singleton] at hmem
    subst hmem
    rw [Bool.not_eq_true, List.any_eq_false] at hc
    obtain ⟨r, hr, hrp⟩ := List.mem_map.mp hx
    exact hc r hr (by simp [hrp])

theorem any_key_iff_mem_map (k : String) (l : List FileRow) :
    (l.any (fun r => r.path = k) = true) ↔ k ∈ l.map (fun r => r.path) := by
  rw [List.any_eq_true]
  simp only [List.mem_map, decide_eq_true_eq]

theorem upsert_mem_key (s : Store) (e : FileEntry) :
    (upsertEntry s e).files.any (fun r => r.path = pathToString e.path) = true := by
  rw [any_key_iff_mem_map, upsert_path_map]
  by_cases hc : s.files.any (fun r => r.path = pathToString e.path)
  · rw [if_pos hc]
    exact (any_key_iff_mem_map _ _).mp hc
  · rw [if_neg hc]
    exact List.mem_append_right _ (List.mem_singleton_self _)

theorem upsert_filter_key (s : Store) (e : FileEntry) (h : pathsUnique s) :
    ((upsertEntry s e).files.filter
      (fun r => r.path = pathToString e.path)).length = 1 := by
  have hle : ((upsertEntry s e).files.filter
      (fun r => r.path = pathToString e.path)).length ≤ 1 :=
    filter_key_length_le_one (fun r : FileRow => r.path) (pathToString e.path)
      (upsertEntry s e).files (upsert_pathsUnique s e h)
  have hpos : 0 < ((upsertEntry s e).files.filter
      (fun r => r.path = pathToString e.path)).length := by
    have := upsert_mem_key s e
    rw [List.any_eq_true] at this
    obtain ⟨r, hr, hrp⟩ := this
    exact List.length_pos.mpr (by
      intro hnil
      have : r ∈ (upsertEntry s e).files.filter
          (fun r => r.path = pathToString e.path) := List.mem_filter.mpr ⟨hr, hrp⟩
      rw [hnil] at this
      exact List.not_mem_nil r this)
  omega

theorem upsert_row_fields (s : Store) (e : FileEntry) (h : pathsUnique s) :
    ∀ r ∈ (upsertEntry s e).files, r.path = pathToString e.path →
      r.filename = e.filename ∧
      r.size = u64_to_i64 e.size ∧
      r.modified_time = system_time_to_timestamp e.modified_time ∧
      r.file_type = e.file_type.asStr ∧
      r.indexed_time = system_time_to_timestamp e.indexed_time ∧
      r.id = (match s.files.find? (fun r₀ => r₀.path = pathToString e.path) with
              | some r₀ => r₀.id
              | none => s.nextFileId) := by
  intro r hr hk
  unfold upsertEntry at hr
  by_cases hc : s.files.any (fun r => r.path = pathToString e.path)
  · rw [if_pos hc] at hr
    simp only [List.mem_map] at hr
    obtain ⟨r₀, hr₀, hfr⟩ := hr
    by_cases hk₀ : r₀.path = pathToString e.path
    · rw [if_pos hk₀] at hfr
      have hfind : s.files.find? (fun r₁ => r₁.path = pathToString e.path) = some r₀ :=
        find_key_of_nodup (fun r₁ : FileRow => r₁.path) (pathToString e.path)
          s.files h r₀ hr₀ hk₀
      rw [hfind]
      subst hfr
      exact ⟨rfl, rfl, rfl, rfl, rfl, rfl⟩
    · rw [if_neg hk₀] at hfr
      subst hfr
      exact absurd hk hk₀
  · rw [if_neg hc] at hr
    rw [Bool.not_eq_true, List.any_eq_false] at hc
    simp only [List.mem_append, List.mem_singleton] at hr
    rcases hr with hr | hr
    · exact absurd (by simp [hk]) (hc r hr)
    · have hfind : s.files.find? (fun r₁ => r₁.path = pathToString e.path) = none := by
        rw [List.find?_eq_none]
        intro x hx
        exact hc x hx
      rw [hfind]
      subst hr
      exact ⟨rfl, rfl, rfl, rfl, rfl, rfl⟩

theorem upsert_count_of_mem (s : Store) (e : FileEntry)
    (hc : s.files.any (fun r => r.path = pathToString e.path) = true) :
    (upsertEntry s e).files.length = s.files.length := by
  simp only [upsertEntry]
  rw [if_pos hc]
  simp

/-- C4: `execute_batch [Add E, Add E]` always succeeds and is an
idempotent upsert keyed by path: afterwards exactly one record sits at
`E.path`, its stored fields are those of `E` (after timestamp and `u64 →
i64` conversion) and its rowid is the pre-existing record's id when one
existed (else the fresh id); re-running the same batch leaves
`count_files` unchanged.  `Update` is the same operation as `Add`
(`applyOp` treats them identically). -/
theorem add_add_idempotent (s : Store) (E : FileEntry) (hu : pathsUnique s) :
    (execute_batch s [IndexOperation.add E, IndexOperation.add E] =
      Except.ok (upsertEntry (upsertEntry s E) E)) ∧
    (execute_batch s [IndexOperation.update E, IndexOperation.update E] =
      execute_batch s [IndexOperation.add E, IndexOperation.add E]) ∧
    (((storeAfterBatch s [IndexOperation.add E, IndexOperation.add E]).files.filter
        (fun r => r.path = pathToString E.path)).length = 1) ∧
    (∀ r ∈ (storeAfterBatch s [IndexOperation.add E, IndexOperation.add E]).files,
      r.path = pathToString E.path →
        r.filename = E.filename ∧
        r.size = u64_to_i64 E.size ∧
        r.modified_time = system_time_to_timestamp E.modified_time ∧
        r.file_type = E.file_type.asStr ∧
        r.indexed_time = system_time_to_timestamp E.indexed_time ∧
        r.id = (match s.files.find? (fun r₀ => r₀.path = pathToString E.path) with
                | some r₀ => r₀.id
                | none => s.nextFileId)) ∧
    (count_files (storeAfterBatch
        (storeAfterBatch s [IndexOperation.add E, IndexOperation.add E])
        [IndexOperation.add E, IndexOperation.add E]) =
      count_files (storeAfterBatch s [IndexOperation.add E, IndexOperation.add E])) := by
  have hbatch : execute_batch s [IndexOperation.add E, IndexOperation.add E] =
      Except.ok (upsertEntry (upsertEntry s E) E) := rfl
  have hafter : storeAfterBatch s [IndexOperation.add E, IndexOperation.add E] =
      upsertEntry (upsertEntry s E) E := by
    unfold storeAfterBatch
    rw [hbatch]
  have hu₁ : pathsUnique (upsertEntry s E) := upsert_pathsUnique s E hu
  refine ⟨hbatch, rfl, ?_, ?_, ?_⟩
  · rw [hafter]
    exact upsert_filter_key (upsertEntry s E) E hu₁
  · rw [hafter]
    intro r hr hk
    have hfields := upsert_row_fields (upsertEntry s E) E hu₁ r hr hk
    refine ⟨hfields.1, hfields.2.1, hfields.2.2.1, hfields.2.2.2.1, hfields.2.2.2.2.1, ?_⟩
    have hid := hfields.2.2.2.2.2
    -- relate the id found in the once-upserted store to the original store
    have hmem₁ := upsert_mem_key s E
    rw [List.any_eq_true] at hmem₁
    obtain ⟨r₁, hr₁, hr₁p⟩ := hmem₁
    simp only [decide_eq_true_eq] at hr₁p
    have hfind₁ : (upsertEntry s E).files.find?
        (fun r₀ => r₀.path = pathToString E.path) = some r₁ :=
      find_key_of_nodup (fun r₀ : FileRow => r₀.path) (pathToString E.path)
        (upsertEntry s E).files hu₁ r₁ hr₁ hr₁p
    rw [hfind₁] at hid
    rw [hid]
    exact (upsert_row_fields s E hu r₁ hr₁ hr₁p).2.2.2.2.2
  · have h₂ : storeAfterBatch (upsertEntry (upsertEntry s E) E)
        [IndexOperation.add E, IndexOperation.add E] =
        upsertEntry (upsertEntry (upsertEntry (upsertEntry s E) E) E) E := by
      unfold storeAfterBatch execute_batch try_execute_batch
      rfl
    rw [hafter, h₂]
    unfold count_files
    rw [upsert_count_of_mem _ E (upsert_mem_key _ E),
      upsert_count_of_mem _ E (upsert_mem_key _ E)]

/-- Witness for C4 on the empty store, which trivially has unique
paths. -/
theorem add_add_idempotent_witness :
    pathsUnique Store.empty ∧
    (((storeAfterBatch Store.empty
        [IndexOperation.add ⟨none, "f.txt", ["a", "f.txt"], 3, 5, .regular, 6⟩,
         IndexOperation.add ⟨none, "f.txt", ["a", "f.txt"], 3, 5, .regular, 6⟩]).files.filter
        (fun r => r.path =
          pathToString (["a", "f.txt"] : FsPath))).length = 1) :=
  ⟨by decide,
   (add_add_idempotent Store.empty
      ⟨none, "f.txt", ["a", "f.txt"], 3, 5, .regular, 6⟩ (by decide)).2.2.1⟩

/-! ## Claim C7 -/

mutual
theorem walkNode_anc (pred : FsPath → Bool) :
    ∀ (base : FsPath) (n : FsNode) (p : FsPath) (m : FsNode),
      (p, m) ∈ walkNode pred base n →
      base <+: p ∧ ∀ q : FsPath, base <+: q → q <+: p → pred q = true
  | base, FsNode.mk name ft sz md ct children, p, m => by
      intro hmem
      rw [walkNode] at hmem
      by_cases hp : pred base
      · rw [if_pos hp] at hmem
        rcases List.mem_cons.mp hmem with heq | hmem'
        · have hpb : p = base := congrArg Prod.fst heq
          subst hpb
          refine ⟨List.prefix_rfl, ?_⟩
          intro q hq1 hq2
          have hlen : q.length = p.length :=
            le_antisymm hq2.length_le hq1.length_le
          have : p = q := hq1.eq_of_length hlen.symm
          subst this
          exact hp
        · have hforest := walkForest_anc pred base children p m hmem'
          obtain ⟨hpre, hlen, hall⟩ := hforest
          refine ⟨hpre, ?_⟩
          intro q hq1 hq2
          by_cases hql : base.length < q.length
          · exact hall q hq1 hql hq2
          · have : q.length = base.length :=
              le_antisymm (not_lt.mp hql) hq1.length_le
            have : q = base := (hq1.eq_of_length this.symm).symm
            subst this
            exact hp
      · rw [if_neg hp] at hmem
        exact absurd hmem (List.not_mem_nil _)

theorem walkForest_anc (pred : FsPath → Bool) :
    ∀ (parent : FsPath) (f : FsForest) (p : FsPath) (m : FsNode),
      (p, m) ∈ walkForest pred parent f →
      parent <+: p ∧ parent.length < p.length ∧
        ∀ q : FsPath, parent <+: q → parent.length < q.length → q <+: p →
          pred q = true
  | parent, FsForest.nil, p, m => by
      intro h
      rw [walkForest] at h
      exact absurd h (List.not_mem_nil _)
  | parent, FsForest.cons c rest, p, m => by
      intro hmem
      rw [walkForest] at hmem
      rcases List.mem_append.mp hmem with hmem' | hmem'
      · have hnode := walkNode_anc pred (parent ++ [c.name]) c p m hmem'
        obtain ⟨hpre, hall⟩ := hnode
        have hlenb : (parent ++ [c.name]).length = parent.length + 1 := by
          simp
        refine ⟨(List.prefix_append parent [c.name]).trans hpre, ?_, ?_⟩
        · have := hpre.length_le
          omega
        · intro q hq1 hql hq2
          have hbq : (parent ++ [c.name]) <+: q :=
            List.prefix_of_prefix_length_le hpre hq2 (by omega)
          exact hall q hbq hq2
      · exact walkForest_anc pred parent rest p m hmem'
end

/-- C7: during a user-root scan the root itself always passes the
filter; a non-root entry with basename `name` is excluded exactly when
`name` matches some exclude pattern; an excluded directory's whole
subtree is pruned, so every path between the root and an emitted entry
passed the filter; and on the tree `/r/visible.txt`, `/r/.hidden`,
`/r/node_modules/x` with excludes `[".*", "node_modules"]` the scan
yields exactly `/r` and `/r/visible.txt`. -/
theorem scanner_exclusion (excludes : List (String → Bool)) (rootPath path : FsPath)
    (name : String) (now : Int) (root : FsNode)
    (hne : path ≠ rootPath) (hname : fileNameOpt path = some name) :
    should_include_entry excludes rootPath rootPath = true ∧
    (should_include_entry excludes rootPath path = false ↔
      excludes.any (fun pat => pat name) = true) ∧
    (∀ e ∈ scan_directory excludes now rootPath root, ∀ q : FsPath,
      rootPath <+: q → q <+: e.path →
        should_include_entry excludes rootPath q = true) ∧
    (scan_directory exGlobs 7 ["r"] treeR).map (fun e => e.path) =
      [["r"], ["r", "visible.txt"]] := by
  refine ⟨?_, ?_, ?_, by decide⟩
  · simp [should_include_entry]
  · rw [should_include_entry, if_neg hne, hname]
    simp
  · intro e he q hq1 hq2
    rw [scan_directory, List.mem_filterMap] at he
    obtain ⟨pn, hpn, hext⟩ := he
    have hpath : e.path = pn.1 := by
      rw [extract_file_entry] at hext
      cases hfn : fileNameOpt pn.1 with
      | none => rw [hfn] at hext; exact absurd hext (by simp)
      | some nm =>
          rw [hfn] at hext
          simp only [Option.some.injEq] at hext
          rw [← hext]
    have hanc := walkNode_anc (should_include_entry excludes rootPath) rootPath root
      pn.1 pn.2 (by
        have : pn = (pn.1, pn.2) := rfl
        rw [← this]
        exact hpn)
    exact hanc.2 q hq1 (hpath ▸ hq2)

/-- Witness for C7 at the concrete scenario-E inputs: path
`/r/.hidden` under root `/r`. -/
theorem scanner_exclusion_witness :
    should_include_entry exGlobs ["r"] ["r"] = true ∧
    (should_include_entry exGlobs ["r"] ["r", ".hidden"] = false ↔
      exGlobs.any (fun pat => pat ".hidden") = true) ∧
    (∀ e ∈ scan_directory exGlobs 7 ["r"] treeR, ∀ q : FsPath,
      (["r"] : FsPath) <+: q → q <+: e.path →
        should_include_entry exGlobs ["r"] q = true) ∧
    (scan_directory exGlobs 7 ["r"] treeR).map (fun e => e.path) =
      [["r"], ["r", "visible.txt"]] :=
  scanner_exclusion exGlobs ["r"] ["r", ".hidden"] ".hidden" 7 treeR
    (by decide) (by decide)

/-! ## Claim C8 -/

/-- C8 counterexample: the claim's "emitted iff extension is
desktop/AppImage OR content begins with the ELF magic OR basename
contains AppImage" fails.  `/opt/tool.bin` begins with the ELF magic, so
the claim requires it to be emitted, but the code checks content and
basename only for files *without* an extension: the extension `bin`
short-circuits everything and the file is dropped. -/
theorem app_scan_elf_extension_cex :
    prefixL elfMagic elfFile.content = true ∧
    extensionOpt "tool.bin" = some "bin" ∧
    ∀ e ∈ scan_application_directory 7 ["opt"] appTree, e.filename ≠ "tool.bin" := by
  decide

/-- C8 (amended): under an application root every non-regular entry is
emitted; a regular file *with* an extension is emitted iff the extension
is `desktop` or `AppImage` (content and basename are not consulted); a
regular file *without* an extension is emitted iff its basename contains
`"AppImage"`, or its first 1024 content bytes contain `"AppImage"`, or
its content begins with the ELF magic `7F 45 4C 46`. -/
theorem app_scan_characterization (now : Int) (rootPath : FsPath) (root : FsNode)
    (p : FsPath) (n : FsNode) (name : String)
    (hmem : (p, n) ∈ walkNode (fun _ => true) rootPath root)
    (hname : fileNameOpt p = some name)
    (hnodup : ((walkNode (fun _ => true) rootPath root).map Prod.fst).Nodup) :
    (({ id := none, filename := name, path := p, size := n.size,
        modified_time := n.modified, file_type := n.ftype,
        indexed_time := now } : FileEntry) ∈
          scan_application_directory now rootPath root) ↔
      (¬ n.ftype = FileType.regular ∨
        (∃ ext, extensionOpt name = some ext ∧ (ext = "desktop" ∨ ext = "AppImage")) ∨
        (extensionOpt name = none ∧
          (strContains name "AppImage" = true ∨
            infixL (asciiBytes "AppImage") (n.content.take 1024) = true ∨
            prefixL elfMagic (n.content.take 1024) = true))) := by
  have hext : extract_file_entry now p n =
      some { id := none, filename := name, path := p, size := n.size,
             modified_time := n.modified, file_type := n.ftype,
             indexed_time := now } := by
    rw [extract_file_entry, hname]
  have happ : app_should_include p n = true ↔
      (¬ n.ftype = FileType.regular ∨
        (∃ ext, extensionOpt name = some ext ∧ (ext = "desktop" ∨ ext = "AppImage")) ∨
        (extensionOpt name = none ∧
          (strContains name "AppImage" = true ∨
            infixL (asciiBytes "AppImage") (n.content.take 1024) = true ∨
            prefixL elfMagic (n.content.take 1024) = true))) := by
    by_cases hft : n.ftype = FileType.regular
    · have hunfold : app_should_include p n =
          (match extensionOpt name with
           | some e => decide (e = "desktop") || decide (e = "AppImage")
           | none => strContains name "AppImage" || is_appimage_file n.content) := by
        rw [app_should_include, if_pos hft, hname]
      rw [hunfold]
      cases hex : extensionOpt name with
      | none =>
          change (strContains name "AppImage" || is_appimage_file n.content) = true ↔ _
          constructor
          · intro h
            simp only [is_appimage_file, Bool.or_eq_true] at h
            refine Or.inr (Or.inr ⟨rfl, ?_⟩)
            tauto
          · intro hrhs
            simp only [is_appimage_file, Bool.or_eq_true]
            rcases hrhs with h | ⟨ext, hext', _⟩ | ⟨_, h⟩
            · exact absurd hft h
            · exact absurd hext'.symm (Option.some_ne_none ext)
            · tauto
      | some ext =>
          change (decide (ext = "desktop") || decide (ext = "AppImage")) = true ↔ _
          constructor
          · intro h
            simp only [Bool.or_eq_true, decide_eq_true_eq] at h
            exact Or.inr (Or.inl ⟨ext, rfl, h⟩)
          · intro hrhs
            rcases hrhs with h | ⟨ext', hext', hcase⟩ | ⟨hnone, _⟩
            · exact absurd hft h
            · have hee : ext = ext' := by injection hext'
              subst hee
              simp only [Bool.or_eq_true, decide_eq_true_eq]
              exact hcase
            · exact absurd hnone (Option.some_ne_none ext)
    · rw [app_should_include, if_neg hft]
      simp [hft]
  rw [← happ]
  constructor
  · intro hsc
    rw [scan_application_directory, List.mem_filterMap] at hsc
    obtain ⟨pn, hpn, hif⟩ := hsc
    by_cases hinc : app_should_include pn.1 pn.2
    · rw [if_pos hinc] at hif
      have hpath : pn.1 = p := by
        rw [extract_file_entry] at hif
        cases hfn : fileNameOpt pn.1 with
        | none => rw [hfn] at hif; exact absurd hif (by simp)
        | some nm =>
            rw [hfn] at hif
            simp only [Option.some.injEq] at hif
            exact congrArg FileEntry.path hif
      have hsnd : pn.2 = n := by
        have h1 : (p, pn.2) ∈ walkNode (fun _ => true) rootPath root := by
          rw [← hpath]
          exact hpn
        exact nodup_fst_eq _ hnodup p pn.2 n h1 hmem
      rw [hpath, hsnd] at hinc
      exact hinc
    · rw [if_neg hinc] at hif
      exact absurd hif (by simp)
  · intro hinc
    rw [scan_application_directory, List.mem_filterMap]
    exact ⟨(p, n), hmem, by rw [if_pos hinc]; exact hext⟩

/-- Witness for C8's amended characterization: the `/opt` directory node
itself (non-regular, hence emitted). -/
theorem app_scan_characterization_witness :
    (({ id := none, filename := "opt", path := ["opt"], size := appTree.size,
        modified_time := appTree.modified, file_type := appTree.ftype,
        indexed_time := 7 } : FileEntry) ∈
          scan_application_directory 7 ["opt"] appTree) ↔
      (¬ appTree.ftype = FileType.regular ∨
        (∃ ext, extensionOpt "opt" = some ext ∧ (ext = "desktop" ∨ ext = "AppImage")) ∨
        (extensionOpt "opt" = none ∧
          (strContains "opt" "AppImage" = true ∨
            infixL (asciiBytes "AppImage") (appTree.content.take 1024) = true ∨
            prefixL elfMagic (appTree.content.take 1024) = true))) :=
  app_scan_characterization 7 ["opt"] appTree ["opt"] appTree "opt"
    (by decide) (by decide) (by decide)

/-! ## Claim C1 -/

/-- C1 counterexample: the query string is spliced into the `LIKE`
patterns, so `%` and `_` act as wildcards.  Querying `"%"` returns the
file `abc`, whose name does not contain `%` case-insensitively — the
claim's "every returned record's filename contains q" fails as
stated. -/
theorem query_files_wildcard_cex :
    ∃ e ∈ query_files wildcardStore "%" 10, containsCI "%" e.filename = false := by
  decide

/-- C1 (amended): for query strings free of the `LIKE` wildcards `%` and
`_`, `query_files` returns at most `limit` records, every returned
filename contains the query case-insensitively, and the ranked rows are
sorted by the tiered order — exact match, then case-insensitive prefix
match, then the rest — with launch count descending and case-insensitive
filename ascending inside a tier. -/
theorem query_files_spec (s : Store) (q : String) (limit : Nat)
    (hq : noWildcards q = true) :
    (query_files s q limit).length ≤ limit ∧
    (∀ e ∈ query_files s q limit, containsCI q e.filename = true) ∧
    (queryRanked s q limit).Pairwise (fun a b =>
      tierSpec q a.1.filename < tierSpec q b.1.filename ∨
      (tierSpec q a.1.filename = tierSpec q b.1.filename ∧
        (b.2 < a.2 ∨ (a.2 = b.2 ∧
          leCL (lowerChars a.1.filename.data) (lowerChars b.1.filename.data) = true)))) := by
  have hchars := noWildcards_chars hq
  have htier : ∀ f : String, tier q f = tierSpec q f := by
    intro f
    rw [tier, tierSpec, likeMatch_lit_pct q.data hchars f.data]
    rfl
  refine ⟨?_, ?_, ?_⟩
  · rw [query_files, List.length_map, queryRanked, List.length_take]
    exact min_le_left _ _
  · intro e he
    rw [query_files, List.mem_map] at he
    obtain ⟨rl, hrl, hre⟩ := he
    have hmem : rl ∈ sortLe (rankLe q)
        ((joinUsage s).filter (fun rl =>
          likeMatch ('%' :: q.data ++ ['%']) rl.1.filename.data)) :=
      (List.take_sublist _ _).mem hrl
    have hfil := (sortLe_perm (rankLe q) _).mem_iff.mp hmem
    have hlike := (List.mem_filter.mp hfil).2
    rw [List.cons_append, likeMatch_infix_pct q.data hchars rl.1.filename.data] at hlike
    rw [← hre]
    exact hlike
  · have hpw := sortLe_pairwise (rankLe q) (rankLe_trans q)
      (fun a b => rankLe_total q a b)
      ((joinUsage s).filter (fun rl =>
        likeMatch ('%' :: q.data ++ ['%']) rl.1.filename.data))
    have hpw' := List.Pairwise.sublist (List.take_sublist limit _) hpw
    refine hpw'.imp ?_
    intro a b h
    rw [rankLe] at h
    simp only [Bool.or_eq_true, Bool.and_eq_true, decide_eq_true_eq] at h
    rcases h with h1 | ⟨h1, h2⟩
    · simp only [htier] at h1
      exact Or.inl h1
    · simp only [htier] at h1
      exact Or.inr ⟨h1, h2⟩

/-- Witness for C1's amended statement at the concrete store holding
`/a/b.txt` and the wildcard-free query `"b"`. -/
theorem query_files_spec_witness :
    noWildcards "b" = true ∧
    ((query_files launchStore "b" 10).length ≤ 10 ∧
      (∀ e ∈ query_files launchStore "b" 10, containsCI "b" e.filename = true) ∧
      (queryRanked launchStore "b" 10).Pairwise (fun a b =>
        tierSpec "b" a.1.filename < tierSpec "b" b.1.filename ∨
        (tierSpec "b" a.1.filename = tierSpec "b" b.1.filename ∧
          (b.2 < a.2 ∨ (a.2 = b.2 ∧
            leCL (lowerChars a.1.filename.data)
              (lowerChars b.1.filename.data) = true))))) :=
  ⟨by decide, query_files_spec launchStore "b" 10 (by decide)⟩

/-! ## Claim C5 -/

theorem lookup_insertReplace_self (k : FsPath) (v : FsEvent × Nat) :
    ∀ l : List (FsPath × FsEvent × Nat),
      lookupPath k (insertReplace k v l) = some v := by
  intro l
  induction l with
  | nil => simp [insertReplace, lookupPath]
  | cons p ps ih =>
      cases p with
      | mk k' v' =>
          simp only [insertReplace]
          by_cases h : k' = k
          · rw [if_pos h, lookupPath, if_pos rfl]
          · rw [if_neg h, lookupPath, if_neg h]
            exact ih

theorem mem_insertReplace (k : FsPath) (v : FsEvent × Nat) :
    ∀ (l : List (FsPath × FsEvent × Nat)) (kv : FsPath × FsEvent × Nat),
      kv ∈ insertReplace k v l → kv = (k, v) ∨ kv ∈ l := by
  intro l
  induction l with
  | nil => intro kv h; simp [insertReplace] at h; exact Or.inl h
  | cons p ps ih =>
      intro kv h
      cases p with
      | mk k' v' =>
          simp only [insertReplace] at h
          by_cases hk : k' = k
          · rw [if_pos hk] at h
            rcases List.mem_cons.mp h with h' | h'
            · exact Or.inl h'
            · exact Or.inr (List.mem_cons_of_mem _ h')
          · rw [if_neg hk] at h
            rcases List.mem_cons.mp h with h' | h'
            · exact Or.inr (h' ▸ List.mem_cons_self _ _)
            · rcases ih kv h' with h'' | h''
              · exact Or.inl h''
              · exact Or.inr (List.mem_cons_of_mem _ h'')

theorem wf_insertReplace (e : FsEvent) (t : Nat)
    (l : List (FsPath × FsEvent × Nat)) (hwf : WfPending l) :
    WfPending (insertReplace (principalPath e) (e, t) l) := by
  refine ⟨insertReplace_keys_nodup _ _ l hwf.1, ?_⟩
  intro kv hkv
  rcases mem_insertReplace _ _ l kv hkv with h | h
  · subst h; rfl
  · exact hwf.2 kv h

theorem wf_filter (pred : (FsPath × FsEvent × Nat) → Bool)
    (l : List (FsPath × FsEvent × Nat)) (hwf : WfPending l) :
    WfPending (l.filter pred) := by
  refine ⟨((List.filter_sublist _).map _).nodup hwf.1, ?_⟩
  intro kv hkv
  exact hwf.2 kv (List.mem_filter.mp hkv).1

theorem lookup_eq_none (k : FsPath) :
    ∀ l : List (FsPath × FsEvent × Nat),
      k ∉ l.map (fun kv => kv.1) → lookupPath k l = none := by
  intro l
  induction l with
  | nil => intro _; rfl
  | cons p ps ih =>
      intro h
      rw [List.map_cons, List.mem_cons] at h
      push_neg at h
      cases p with
      | mk k' v' =>
          rw [lookupPath, if_neg ?_]
          · exact ih h.2
          · intro he
            exact h.1 (by rw [he])

theorem lookup_mem (k : FsPath) :
    ∀ (l : List (FsPath × FsEvent × Nat)) (v : FsEvent × Nat),
      lookupPath k l = some v → (k, v) ∈ l := by
  intro l
  induction l with
  | nil => intro v h; exact absurd h (by simp [lookupPath])
  | cons p ps ih =>
      intro v h
      cases p with
      | mk k' v' =>
          rw [lookupPath] at h
          by_cases hk : k' = k
          · rw [if_pos hk] at h
            subst hk
            rw [Option.some_inj] at h
            subst h
            exact List.mem_cons_self _ _
          · rw [if_neg hk] at h
            exact List.mem_cons_of_mem _ (ih v h)

theorem lookup_filter_some (k : FsPath) (pred : (FsPath × FsEvent × Nat) → Bool) :
    ∀ l : List (FsPath × FsEvent × Nat),
      (l.map (fun kv => kv.1)).Nodup →
      ∀ v : FsEvent × Nat, lookupPath k l = some v →
      lookupPath k (l.filter pred) = (if pred (k, v) then some v else none) := by
  intro l
  induction l with
  | nil => intro _ v hl; exact absurd hl (by simp [lookupPath])
  | cons p ps ih =>
      intro hnd v hl
      rw [List.map_cons, List.nodup_cons] at hnd
      obtain ⟨hnp, hnd'⟩ := hnd
      cases p with
      | mk k' v' =>
          by_cases hk : k' = k
          · subst hk
            rw [lookupPath, if_pos rfl, Option.some_inj] at hl
            subst hl
            by_cases hpred : pred (k', v')
            · rw [List.filter_cons_of_pos hpred, lookupPath, if_pos rfl, if_pos hpred]
            · rw [List.filter_cons_of_neg hpred, if_neg hpred]
              refine lookup_eq_none k' _ ?_
              intro hmem
              exact hnp (((List.filter_sublist ps).map (fun kv => kv.1)).mem hmem)
          · rw [lookupPath, if_neg hk] at hl
            have htail : lookupPath k (List.filter pred (⟨k', v'⟩ :: ps)) =
                lookupPath k (List.filter pred ps) := by
              by_cases hpred : pred (k', v')
              · rw [List.filter_cons_of_pos hpred, lookupPath, if_neg hk]
              · rw [List.filter_cons_of_neg hpred]
            rw [htail]
            exact ih hnd' v hl

theorem lookup_filter_keep (k : FsPath) (pred : (FsPath × FsEvent × Nat) → Bool)
    (l : List (FsPath × FsEvent × Nat)) (hnd : (l.map (fun kv => kv.1)).Nodup)
    (v : FsEvent × Nat) (hl : lookupPath k l = some v) (hp : pred (k, v) = true) :
    lookupPath k (l.filter pred) = some v := by
  rw [lookup_filter_some k pred l hnd v hl, if_pos hp]

theorem lookup_filter_drop (k : FsPath) (pred : (FsPath × FsEvent × Nat) → Bool)
    (l : List (FsPath × FsEvent × Nat)) (hnd : (l.map (fun kv => kv.1)).Nodup)
    (v : FsEvent × Nat) (hl : lookupPath k l = some v) (hp : pred (k, v) = false) :
    lookupPath k (l.filter pred) = none := by
  rw [lookup_filter_some k pred l hnd v hl, if_neg (by simp [hp])]

theorem opPath_event (fs : FsView) (e : FsEvent) (op : IndexOperation)
    (h : event_to_operation fs e = some op) : opPath op = principalPath e := by
  cases e with
  | created p =>
      rw [event_to_operation] at h
      cases hc : create_file_entry fs p with
      | none => rw [hc] at h; exact absurd h (by simp)
      | some entry =>
          rw [hc, Option.map_some'] at h
          rw [Option.some_inj] at h
          subst h
          rw [create_file_entry] at hc
          cases hl : fs.lookup p with
          | none => rw [hl] at hc; exact absurd hc (by simp)
          | some m =>
              rw [hl] at hc
              cases hf : fileNameOpt p with
              | none => rw [hf] at hc; exact absurd hc (by simp)
              | some nm =>
                  rw [hf, Option.some_inj] at hc
                  subst hc
                  rfl
  | modified p =>
      rw [event_to_operation] at h
      cases hc : create_file_entry fs p with
      | none => rw [hc] at h; exact absurd h (by simp)
      | some entry =>
          rw [hc, Option.map_some'] at h
          rw [Option.some_inj] at h
          subst h
          rw [create_file_entry] at hc
          cases hl : fs.lookup p with
          | none => rw [hl] at hc; exact absurd hc (by simp)
          | some m =>
              rw [hl] at hc
              cases hf : fileNameOpt p with
              | none => rw [hf] at hc; exact absurd hc (by simp)
              | some nm =>
                  rw [hf, Option.some_inj] at hc
                  subst hc
                  rfl
  | deleted p =>
      rw [event_to_operation, Option.some_inj] at h
      subst h
      rfl
  | moved f t =>
      rw [event_to_operation, Option.some_inj] at h
      subst h
      rfl

theorem flush_ops_none (fs : FsView) (x : FsPath) :
    ∀ l : List (FsPath × FsEvent × Nat),
      (∀ kv ∈ l, principalPath kv.2.1 = kv.1) →
      x ∉ l.map (fun kv => kv.1) →
      (l.filterMap (fun kv => event_to_operation fs kv.2.1)).filter
        (fun op => opPath op = x) = [] := by
  intro l hcons hx
  rw [List.filter_eq_nil_iff]
  intro op hop
  rw [List.mem_filterMap] at hop
  obtain ⟨kv, hkv, hconv⟩ := hop
  have hp := opPath_event fs kv.2.1 op hconv
  rw [hcons kv hkv] at hp
  simp only [decide_eq_true_eq]
  intro hpx
  rw [hp] at hpx
  exact hx (hpx ▸ List.mem_map_of_mem (fun kv => kv.1) hkv)

theorem flush_ops_for_path (fs : FsView) (x : FsPath) :
    ∀ l : List (FsPath × FsEvent × Nat),
      (l.map (fun kv => kv.1)).Nodup →
      (∀ kv ∈ l, principalPath kv.2.1 = kv.1) →
      ∀ v : FsEvent × Nat, lookupPath x l = some v →
      (l.filterMap (fun kv => event_to_operation fs kv.2.1)).filter
          (fun op => opPath op = x) = (event_to_operation fs v.1).toList := by
  intro l
  induction l with
  | nil => intro _ _ v hl; exact absurd hl (by simp [lookupPath])
  | cons p ps ih =>
      intro hnd hcons v hl
      rw [List.map_cons, List.nodup_cons] at hnd
      obtain ⟨hnp, hnd'⟩ := hnd
      have hcons' : ∀ kv ∈ ps, principalPath kv.2.1 = kv.1 :=
        fun kv hkv => hcons kv (List.mem_cons_of_mem _ hkv)
      cases p with
      | mk k w =>
          have hkey : principalPath w.1 = k := hcons (k, w) (List.mem_cons_self _ _)
          by_cases hk : k = x
          · subst hk
            rw [lookupPath, if_pos rfl, Option.some_inj] at hl
            subst hl
            cases hconv : event_to_operation fs w.1 with
            | none =>
                simp only [List.filterMap_cons, hconv]
                exact flush_ops_none fs k ps hcons' hnp
            | some op =>
                have hop : opPath op = k := by
                  rw [opPath_event fs w.1 op hconv, hkey]
                simp only [List.filterMap_cons, hconv]
                rw [List.filter_cons_of_pos (by simp [hop]),
                  flush_ops_none fs k ps hcons' hnp]
                rfl
          · rw [lookupPath, if_neg hk] at hl
            cases hconv : event_to_operation fs w.1 with
            | none =>
                simp only [List.filterMap_cons, hconv]
                exact ih hnd' hcons' v hl
            | some op =>
                have hop : opPath op = k := by
                  rw [opPath_event fs w.1 op hconv, hkey]
                simp only [List.filterMap_cons, hconv]
                rw [List.filter_cons_of_neg (by simp [hop, hk])]
                exact ih hnd' hcons' v hl

theorem runTrace_lookup (x : FsPath) (deb : Nat) :
    ∀ (tr : List (PAction × Nat)) (p : EventProcessor) (e : FsEvent) (tlast : Nat),
      p.debounce_duration = deb →
      WfPending p.pending_events →
      lookupPath x p.pending_events = some (e, tlast) →
      principalPath e = x →
      GoodTrace x deb tlast tr →
      (runTrace p tr).debounce_duration = deb ∧
      WfPending (runTrace p tr).pending_events ∧
      lookupPath x (runTrace p tr).pending_events = some (lastAdd (e, tlast) tr) ∧
      principalPath (lastAdd (e, tlast) tr).1 = x := by
  intro tr
  induction tr with
  | nil =>
      intro p e tlast hdeb hwf hl hpx _
      exact ⟨hdeb, hwf, hl, hpx⟩
  | cons step rest ih =>
      intro p e tlast hdeb hwf hl hpx htr
      cases step with
      | mk act t =>
          cases act with
          | add e' =>
              cases htr with
              | add _ _ _ _ hle hgap hx htr' =>
                  rw [runTrace, lastAdd]
                  have hpend : (add_event p e' t).pending_events =
                      insertReplace x (e', t) p.pending_events := by
                    rw [add_event, hx]
                  refine ih (add_event p e' t) e' t hdeb ?_ ?_ hx htr'
                  · rw [hpend]
                    have := wf_insertReplace e' t p.pending_events hwf
                    rw [hx] at this
                    exact this
                  · rw [hpend]
                    exact lookup_insertReplace_self x (e', t) p.pending_events
          | flush fs' =>
              cases htr with
              | flush _ _ _ _ hle hgap htr' =>
                  rw [runTrace, lastAdd]
                  have hpend : (process_pending fs' t p).1.pending_events =
                      p.pending_events.filter
                        (fun kv => ¬ isReady p.debounce_duration t kv.2.2) := rfl
                  refine ih (process_pending fs' t p).1 e tlast hdeb ?_ ?_ hpx htr'
                  · rw [hpend]
                    exact wf_filter _ _ hwf
                  · rw [hpend]
                    refine lookup_filter_keep x _ p.pending_events hwf.1 (e, tlast) hl ?_
                    simp only [isReady, hdeb, decide_not, decide_eq_true_eq,
                      Bool.not_eq_true', decide_eq_false_iff_not]
                    omega

/-- C5: for any finite burst of events on a single path (each arriving
less than `debounce_duration` after the previous one, with any
interleaved `process_pending` calls running before the latest event's
debounce has elapsed), the first `process_pending` at or after the final
event's debounce expiry removes the path's pending entry and emits, for
that path, exactly the operation derived from the *last* event —
`Delete` for `Deleted`, `Add`/`Update` from current metadata for
`Created`/`Modified` (nothing if the file has vanished), `Move` for
`Moved`. -/
theorem debounce_last_event_wins (fs : FsView) (p₀ : EventProcessor) (x : FsPath)
    (e₀ : FsEvent) (t₀ : Nat) (tr : List (PAction × Nat)) (T : Nat)
    (hwf : WfPending p₀.pending_events)
    (he₀ : principalPath e₀ = x)
    (htr : GoodTrace x p₀.debounce_duration t₀ tr)
    (hT : (lastAdd (e₀, t₀) tr).2 + p₀.debounce_duration ≤ T) :
    lookupPath x (process_pending fs T
        (runTrace (add_event p₀ e₀ t₀) tr)).1.pending_events = none ∧
    (process_pending fs T (runTrace (add_event p₀ e₀ t₀) tr)).2.filter
        (fun op => opPath op = x) =
      (event_to_operation fs (lastAdd (e₀, t₀) tr).1).toList := by
  have hpend₀ : (add_event p₀ e₀ t₀).pending_events =
      insertReplace x (e₀, t₀) p₀.pending_events := by
    rw [add_event, he₀]
  have hwf₀ : WfPending (add_event p₀ e₀ t₀).pending_events := by
    rw [hpend₀]
    have := wf_insertReplace e₀ t₀ p₀.pending_events hwf
    rw [he₀] at this
    exact this
  have hl₀ : lookupPath x (add_event p₀ e₀ t₀).pending_events = some (e₀, t₀) := by
    rw [hpend₀]
    exact lookup_insertReplace_self x (e₀, t₀) p₀.pending_events
  have hrun := runTrace_lookup x p₀.debounce_duration tr (add_event p₀ e₀ t₀) e₀ t₀
    rfl hwf₀ hl₀ he₀ htr
  obtain ⟨hdeb, hwf₁, hl₁, _⟩ := hrun
  set p₁ := runTrace (add_event p₀ e₀ t₀) tr with hp₁
  have hready : isReady p₁.debounce_duration T (lastAdd (e₀, t₀) tr).2 = true := by
    simp only [isReady, hdeb, decide_eq_true_eq]
    omega
  constructor
  · have hpp : (process_pending fs T p₁).1.pending_events =
        p₁.pending_events.filter
          (fun kv => ¬ isReady p₁.debounce_duration T kv.2.2) := rfl
    rw [hpp]
    refine lookup_filter_drop x _ p₁.pending_events hwf₁.1 (lastAdd (e₀, t₀) tr) hl₁ ?_
    simp [hready]
  · have hops : (process_pending fs T p₁).2 =
        (p₁.pending_events.filter
            (fun kv => isReady p₁.debounce_duration T kv.2.2)).filterMap
          (fun kv => event_to_operation fs kv.2.1) := rfl
    rw [hops]
    have hwfready := wf_filter
      (fun kv => isReady p₁.debounce_duration T kv.2.2) p₁.pending_events hwf₁
    have hlready : lookupPath x (p₁.pending_events.filter
        (fun kv => isReady p₁.debounce_duration T kv.2.2)) =
        some (lastAdd (e₀, t₀) tr) :=
      lookup_filter_keep x _ p₁.pending_events hwf₁.1 (lastAdd (e₀, t₀) tr) hl₁ hready
    exact flush_ops_for_path fs x _ hwfready.1 hwfready.2 (lastAdd (e₀, t₀) tr) hlready

/-- Witness for C5: a Created→Modified→Modified burst on `/a/f` (gaps
under the 100-tick debounce, one early flush), flushed at `T = 230`:
the single emitted operation for `/a/f` is the `Update` built from the
file's current metadata. -/
theorem debounce_last_event_wins_witness :
    lookupPath ["a", "f"] (process_pending
        ⟨fun p => if p = ["a", "f"] then some ⟨4, 9, FileType.regular⟩ else none, 77⟩ 230
        (runTrace (add_event (EventProcessor.mkNew 100 10)
            (FsEvent.created ["a", "f"]) 0)
          [(PAction.add (FsEvent.modified ["a", "f"]), 50),
           (PAction.flush ⟨fun _ => none, 0⟩, 120),
           (PAction.add (FsEvent.modified ["a", "f"]), 130)])).1.pending_events =
      none ∧
    (process_pending
        ⟨fun p => if p = ["a", "f"] then some ⟨4, 9, FileType.regular⟩ else none, 77⟩ 230
        (runTrace (add_event (EventProcessor.mkNew 100 10)
            (FsEvent.created ["a", "f"]) 0)
          [(PAction.add (FsEvent.modified ["a", "f"]), 50),
           (PAction.flush ⟨fun _ => none, 0⟩, 120),
           (PAction.add (FsEvent.modified ["a", "f"]), 130)])).2.filter
        (fun op => opPath op = ["a", "f"]) =
      (event_to_operation
        ⟨fun p => if p = ["a", "f"] then some ⟨4, 9, FileType.regular⟩ else none, 77⟩
        (lastAdd (FsEvent.created ["a", "f"], 0)
          [(PAction.add (FsEvent.modified ["a", "f"]), 50),
           (PAction.flush ⟨fun _ => none, 0⟩, 120),
           (PAction.add (FsEvent.modified ["a", "f"]), 130)]).1).toList :=
  debounce_last_event_wins
    ⟨fun p => if p = ["a", "f"] then some ⟨4, 9, FileType.regular⟩ else none, 77⟩
    (EventProcessor.mkNew 100 10) ["a", "f"] (FsEvent.created ["a", "f"]) 0
    [(PAction.add (FsEvent.modified ["a", "f"]), 50),
     (PAction.flush ⟨fun _ => none, 0⟩, 120),
     (PAction.add (FsEvent.modified ["a", "f"]), 130)] 230
    (by constructor <;> simp [EventProcessor.mkNew])
    rfl
    (GoodTrace.add 0 50 _ _ (by omega) (by simp [EventProcessor.mkNew]) rfl
      (GoodTrace.flush 50 120 _ _ (by omega) (by simp [EventProcessor.mkNew])
        (GoodTrace.add 50 130 _ _ (by omega) (by simp [EventProcessor.mkNew]) rfl
          (GoodTrace.nil 130))))
    (by simp [lastAdd, EventProcessor.mkNew])

/-- Witness for C10: moving `/a/b.txt` to the root `/` succeeds and
leaves a record at path `/` with empty filename. -/
theorem move_without_basename_witness :
    ∃ s', move_file launchStore ["a", "b.txt"] [] = Except.ok s' ∧
      try_execute_batch launchStore [IndexOperation.move ["a", "b.txt"] []] =
        Except.ok s' ∧
      ({ (⟨1, "b.txt", "/a/b.txt", 10, 5, "regular", 6⟩ : FileRow) with
          path := pathToString ([] : FsPath), filename := "" } : FileRow) ∈ s'.files :=
  move_without_basename launchStore ["a", "b.txt"] []
    ⟨1, "b.txt", "/a/b.txt", 10, 5, "regular", 6⟩
    (by decide) (by decide) (by decide) (by decide)

end NovaSearch
